import Mathlib

/-!
Verification of the k-way sorted-stream merger `MergedChannels`
(src/after/merged_chan.rs).

The Rust struct owns a vector of channels (`chans`), a buffer of
`(value, channel index)` head items kept sorted in descending order
(`head_items`, the minimum sits at the end and is removed with `pop`),
and the index of the channel that supplied the previously yielded item
(`last_picked`).

Shallow embedding conventions:
* a channel (`crossbeam::channel::Receiver<T>`) is modelled as the list
  of values it will still deliver, in delivery order; `recv()` on a
  non-empty list returns its head and leaves the tail, and `recv()` on
  the empty list returns the disconnection error (`END`);
* Rust panics (the out-of-bounds `self.chans[id]` indexing and the
  `unreachable!()` duplicate-key branch of `sorted_insert`) are modelled
  as `Except.error` values of type `Panic`;
* `slice::binary_search_by` is embedded as `binarySearchGo`, the
  standard library's left/right bisection loop, with a structural fuel
  argument standing in for the termination measure `right - left`
  (`l.length + 1` fuel always suffices, see `binarySearchGo_fuel_irrel`).
-/

/-- The two panics the merger code can in principle hit: indexing
`self.chans[id]` out of bounds, and the `unreachable!()` branch of
`sorted_insert`. -/
inductive Panic where
  | indexOutOfBounds
  | duplicateKey
deriving Repr, DecidableEq

/-- Three-way comparison derived from a linear order, as Rust's
`Ord::cmp` on the element type `T`. -/
def cmpv {T : Type} [LinearOrder T] (a b : T) : Ordering :=
  if a < b then Ordering.lt else if b < a then Ordering.gt else Ordering.eq

/-- Rust's derived lexicographic `Ord` on the pair `(T, usize)`:
compare values first, channel indices second. -/
def cmpPair {T : Type} [LinearOrder T] (a b : T × Nat) : Ordering :=
  (cmpv a.1 b.1).then (cmpv a.2 b.2)

/-- The bisection loop of `slice::binary_search_by`: on `Ordering.lt`
search the right half, on `Ordering.gt` the left half, on `Ordering.eq`
return `Sum.inl mid` (Rust's `Ok(mid)`); when the window is empty return
`Sum.inr left` (Rust's `Err(left)`, the insertion point).  The `fuel`
argument makes the recursion structural; each iteration shrinks
`right - left`, so any `fuel > right - left` gives the loop's value. -/
def binarySearchGo {α : Type} (f : α → Ordering) (l : List α) :
    Nat → Nat → Nat → Nat ⊕ Nat
  | 0, left, _ => Sum.inr left
  | fuel + 1, left, right =>
    if left < right then
      match l[left + (right - left) / 2]? with
      | none => Sum.inr left
      | some a =>
        match f a with
        | Ordering.lt => binarySearchGo f l fuel (left + (right - left) / 2 + 1) right
        | Ordering.gt => binarySearchGo f l fuel left (left + (right - left) / 2)
        | Ordering.eq => Sum.inl (left + (right - left) / 2)
    else Sum.inr left

/-- `l.binary_search_by(f)` over the whole slice. -/
def binarySearchBy {α : Type} (l : List α) (f : α → Ordering) : Nat ⊕ Nat :=
  binarySearchGo f l (l.length + 1) 0 l.length

/-- `self.head_items.iter_mut().find(|item| item.1 == old_id)` followed by
`dirty_head_item.1 = id`: re-tag the first head item carrying channel
index `o` with the index `n`, leaving everything else unchanged. -/
def retagFirst {T : Type} : List (T × Nat) → Nat → Nat → List (T × Nat)
  | [], _, _ => []
  | p :: rest, o, n =>
    if p.2 = o then (p.1, n) :: rest else p :: retagFirst rest o n

/-- The state of `MergedChannels<T>`: the channels still being merged,
the sorted buffer of `(value, channel index)` head items (descending;
the minimum is at the end), and the index of the channel whose value was
yielded last. -/
structure MergedChannels (T : Type) where
  chans : List (List T)
  head_items : List (T × Nat)
  last_picked : Option Nat
deriving Repr, DecidableEq

namespace MergedChannels

variable {T : Type} [LinearOrder T]

/-- `MergedChannels::new`: store the channels, no head items, no
`last_picked` marker. -/
def new (chans : List (List T)) : MergedChannels T :=
  { chans := chans, head_items := [], last_picked := none }

/-- `MergedChannels::sorted_insert`: binary search for the insertion
point of `item` (comparing reversed, because the buffer is descending)
and insert there; an exact match is the `unreachable!()` panic. -/
def sorted_insert (s : MergedChannels T) (item : T × Nat) :
    Except Panic (MergedChannels T) :=
  match binarySearchBy s.head_items (fun probe => (cmpPair probe item).swap) with
  | Sum.inl _ => Except.error Panic.duplicateKey
  | Sum.inr ind =>
      Except.ok { s with head_items := s.head_items.insertIdx ind item }

/-- `MergedChannels::remove_channel`: `Vec::swap_remove(id)` moves the
last channel into slot `id` and shrinks the vector; the head item still
tagged with the old index of that moved channel (`old_id`, the new
length) is re-tagged with `id`.  Only called after `chans[id]` has been
indexed successfully, so `id < chans.length` and `chans` is non-empty at
every call site. -/
def remove_channel (s : MergedChannels T) (id : Nat) : MergedChannels T :=
  let chans' := (s.chans.set id (s.chans.getLastD [])).dropLast
  let old_id := chans'.length
  { s with chans := chans', head_items := retagFirst s.head_items old_id id }

/-- `MergedChannels::receive_from`: `self.chans[id].recv()`; out-of-range
indexing panics, a delivered value is inserted into the buffer, and a
disconnected empty channel is retired. -/
def receive_from (s : MergedChannels T) (id : Nat) :
    Except Panic (MergedChannels T) :=
  match s.chans[id]? with
  | none => Except.error Panic.indexOutOfBounds
  | some [] => Except.ok (remove_channel s id)
  | some (v :: rest) =>
      sorted_insert { s with chans := s.chans.set id rest } (v, id)

/-- The body of `receive_from_all`'s `for id in 0..self.chans.len()`
loop, with the iteration sequence made explicit. -/
def receive_from_list (s : MergedChannels T) :
    List Nat → Except Panic (MergedChannels T)
  | [] => Except.ok s
  | id :: ids =>
    match receive_from s id with
    | Except.error e => Except.error e
    | Except.ok s' => receive_from_list s' ids

/-- `MergedChannels::receive_from_all`: pull once from every index in
`0..self.chans.len()`, where the range is evaluated once, up front. -/
def receive_from_all (s : MergedChannels T) : Except Panic (MergedChannels T) :=
  receive_from_list s (List.range s.chans.length)

/-- `MergedChannels::get_next_head_item`: `Vec::pop` the last (minimal)
head item, record its channel index in `last_picked`, return its value. -/
def get_next_head_item (s : MergedChannels T) : MergedChannels T × Option T :=
  match s.head_items.getLast? with
  | none => (s, none)
  | some (v, id) =>
      ({ s with head_items := s.head_items.dropLast, last_picked := some id },
       some v)

/-- `<MergedChannels as Iterator>::next`: `None` (here `(s, none)`) once
`chans` is empty; otherwise refill — from the single `last_picked`
channel, or from all channels on the first call — then pop the minimal
head item. -/
def next (s : MergedChannels T) : Except Panic (MergedChannels T × Option T) :=
  if s.chans.isEmpty then Except.ok (s, none)
  else
    match (match s.last_picked with
           | some id => receive_from s id
           | none => receive_from_all s) with
    | Except.error e => Except.error e
    | Except.ok s' => Except.ok (get_next_head_item s')

/-- Call `next` `n` times, collecting every yielded value in order
(`out.toList` is `[v]` for a yielded `v` and `[]` for a `DONE` answer). -/
def steps (s : MergedChannels T) : Nat → Except Panic (MergedChannels T × List T)
  | 0 => Except.ok (s, [])
  | n + 1 =>
    match next s with
    | Except.error e => Except.error e
    | Except.ok (s', out) =>
      match steps s' n with
      | Except.error e => Except.error e
      | Except.ok (s'', outs) => Except.ok (s'', out.toList ++ outs)

end MergedChannels

/-! ### Comparison lemmas -/

theorem cmpv_eq_lt {T : Type} [LinearOrder T] {a b : T} :
    cmpv a b = Ordering.lt ↔ a < b := by
  unfold cmpv
  split
  · simp_all
  · split <;> simp_all

theorem cmpv_eq_gt {T : Type} [LinearOrder T] {a b : T} :
    cmpv a b = Ordering.gt ↔ b < a := by
  unfold cmpv
  split
  · constructor
    · intro h; cases h
    · intro h; exact absurd (lt_trans h (by assumption)) (lt_irrefl b)
  · split <;> simp_all

theorem cmpv_eq_eq {T : Type} [LinearOrder T] {a b : T} :
    cmpv a b = Ordering.eq ↔ a = b := by
  unfold cmpv
  split
  · constructor
    · intro h; cases h
    · intro h; subst h; exact absurd (by assumption) (lt_irrefl a)
  · split
    · constructor
      · intro h; cases h
      · intro h; subst h; exact absurd (by assumption) (lt_irrefl a)
    · simp
      exact le_antisymm (le_of_not_lt (by assumption)) (le_of_not_lt (by assumption))

theorem ordering_then_eq_eq {o₁ o₂ : Ordering} :
    o₁.then o₂ = Ordering.eq ↔ o₁ = Ordering.eq ∧ o₂ = Ordering.eq := by
  cases o₁ <;> simp [Ordering.then]

theorem cmpPair_eq_eq {T : Type} [LinearOrder T] {a b : T × Nat} :
    cmpPair a b = Ordering.eq ↔ a = b := by
  unfold cmpPair
  rw [ordering_then_eq_eq, cmpv_eq_eq, cmpv_eq_eq]
  constructor
  · intro h; exact Prod.ext h.1 h.2
  · intro h; subst h; exact ⟨rfl, rfl⟩

theorem cmpPair_gt_fst_le {T : Type} [LinearOrder T] {a b : T × Nat}
    (h : cmpPair a b = Ordering.gt) : b.1 ≤ a.1 := by
  unfold cmpPair at h
  rcases ha : cmpv a.1 b.1
  · rw [ha] at h; exact absurd h (by simp [Ordering.then])
  · exact le_of_eq (cmpv_eq_eq.mp ha).symm
  · exact le_of_lt (cmpv_eq_gt.mp ha)

theorem cmpPair_lt_fst_le {T : Type} [LinearOrder T] {a b : T × Nat}
    (h : cmpPair a b = Ordering.lt) : a.1 ≤ b.1 := by
  unfold cmpPair at h
  rcases ha : cmpv a.1 b.1
  · exact le_of_lt (cmpv_eq_lt.mp ha)
  · exact le_of_eq (cmpv_eq_eq.mp ha)
  · rw [ha] at h; exact absurd h (by simp [Ordering.then])

theorem swap_cmpPair_eq_eq {T : Type} [LinearOrder T] {a b : T × Nat}
    (h : (cmpPair a b).swap = Ordering.eq) : a = b := by
  apply cmpPair_eq_eq.mp
  rcases hc : cmpPair a b <;> rw [hc] at h <;> first | rfl | exact absurd h (by simp [Ordering.swap])

theorem swap_eq_lt {o : Ordering} : o.swap = Ordering.lt ↔ o = Ordering.gt := by
  cases o <;> simp [Ordering.swap]

theorem swap_eq_gt {o : Ordering} : o.swap = Ordering.gt ↔ o = Ordering.lt := by
  cases o <;> simp [Ordering.swap]

/-! ### Binary-search lemmas -/

/-- If the comparator never answers `eq` on an element of the list, the
search always lands in the `Err` (insertion point) branch, and the
insertion point lies inside the searched window. -/
theorem binarySearchGo_inr {α : Type} (f : α → Ordering) (l : List α)
    (hne : ∀ a ∈ l, f a ≠ Ordering.eq) :
    ∀ fuel left right, left ≤ right →
      ∃ i, binarySearchGo f l fuel left right = Sum.inr i ∧ left ≤ i ∧ i ≤ right := by
  intro fuel
  induction fuel with
  | zero => intro left right hlr; exact ⟨left, rfl, le_refl _, hlr⟩
  | succ fuel ih =>
    intro left right hlr
    by_cases hlt : left < right
    · have hmid_lt : left + (right - left) / 2 < right := by omega
      have hmid_ge : left ≤ left + (right - left) / 2 := by omega
      rcases hget : l[left + (right - left) / 2]? with _ | a
      · exact ⟨left, by simp [binarySearchGo, hlt, hget], le_refl _, hlr⟩
      · rcases hf : f a with _ | _ | _
        · rcases ih (left + (right - left) / 2 + 1) right (by omega) with ⟨i, hrec, h1, h2⟩
          exact ⟨i, by simp [binarySearchGo, hlt, hget, hf, hrec], by omega, h2⟩
        · have : a ∈ l := List.getElem?_mem hget
          exact absurd hf (hne a this)
        · rcases ih left (left + (right - left) / 2) (by omega) with ⟨i, hrec, h1, h2⟩
          exact ⟨i, by simp [binarySearchGo, hlt, hget, hf, hrec], h1, by omega⟩
    · exact ⟨left, by simp [binarySearchGo, hlt], le_refl _, hlr⟩

/-- On a buffer that is weakly descending by value, indices grow only
towards weakly smaller values. -/
def valdesc {T : Type} [LinearOrder T] (a b : T × Nat) : Prop := b.1 ≤ a.1

theorem valdesc_getElem? {T : Type} [LinearOrder T] {l : List (T × Nat)}
    (h : l.Pairwise valdesc) {k m : Nat} {p q : T × Nat} (hkm : k ≤ m)
    (hk : l[k]? = some p) (hm : l[m]? = some q) : q.1 ≤ p.1 := by
  rcases List.getElem?_eq_some_iff.mp hk with ⟨hk1, hk2⟩
  rcases List.getElem?_eq_some_iff.mp hm with ⟨hm1, hm2⟩
  rcases Nat.eq_or_lt_of_le hkm with heq | hlt
  · subst heq; rw [hk2] at hm2; rw [hm2]
  · have := List.pairwise_iff_getElem.mp h k m hk1 hm1 hlt
    rw [hk2, hm2] at this
    exact this

/-- Value boundaries of the insertion point: everything strictly before
the returned index has value `≥ item.1`, everything at or after it has
value `≤ item.1`.  Only weak value-descending sortedness of the buffer
is assumed (pair-level strict sortedness is not an invariant of the
code, because retirement re-tags indices in place). -/
theorem binarySearchGo_bounds {T : Type} [LinearOrder T] {l : List (T × Nat)}
    {item : T × Nat} (hsorted : l.Pairwise valdesc) :
    ∀ fuel left right i, right ≤ l.length → right - left ≤ fuel →
      binarySearchGo (fun probe => (cmpPair probe item).swap) l fuel left right = Sum.inr i →
      (∀ k p, k < left → l[k]? = some p → item.1 ≤ p.1) →
      (∀ k p, right ≤ k → l[k]? = some p → p.1 ≤ item.1) →
      (∀ k p, k < i → l[k]? = some p → item.1 ≤ p.1) ∧
      (∀ k p, i ≤ k → l[k]? = some p → p.1 ≤ item.1) := by
  intro fuel
  induction fuel with
  | zero =>
    intro left right i hlen hfuel hrun hpre hpost
    have hi : i = left := by
      simp only [binarySearchGo] at hrun
      exact (Sum.inr.injEq _ _).mp hrun.symm |>.symm ▸ rfl
    subst hi
    refine ⟨hpre, fun k p hk hp => ?_⟩
    exact hpost k p (by omega) hp
  | succ fuel ih =>
    intro left right i hlen hfuel hrun hpre hpost
    by_cases hlt : left < right
    · have hmid_lt : left + (right - left) / 2 < right := by omega
      have hmid_ge : left ≤ left + (right - left) / 2 := by omega
      rcases hget : l[left + (right - left) / 2]? with _ | a
      · have : l.length ≤ left + (right - left) / 2 := List.getElem?_eq_none_iff.mp hget
        omega
      · rcases hf : (cmpPair a item).swap with _ | _ | _
        · have hgt : cmpPair a item = Ordering.gt := swap_eq_lt.mp hf
          have hile : item.1 ≤ a.1 := cmpPair_gt_fst_le hgt
          simp only [binarySearchGo, if_pos hlt, hget, hf] at hrun
          refine ih (left + (right - left) / 2 + 1) right i hlen (by omega) hrun ?_ hpost
          intro k p hk hp
          exact le_trans hile (valdesc_getElem? hsorted (by omega) hp hget)
        · have heq : cmpPair a item = Ordering.eq := by
            rcases hc : cmpPair a item <;> rw [hc] at hf <;>
              first | rfl | exact absurd hf (by simp [Ordering.swap])
          simp only [binarySearchGo, if_pos hlt, hget, hf] at hrun
          exact absurd hrun (by simp)
        · have hlt2 : cmpPair a item = Ordering.lt := swap_eq_gt.mp hf
          have hale : a.1 ≤ item.1 := cmpPair_lt_fst_le hlt2
          simp only [binarySearchGo, if_pos hlt, hget, hf] at hrun
          refine ih left (left + (right - left) / 2) i (by omega) (by omega) hrun hpre ?_
          intro k p hk hp
          exact le_trans (valdesc_getElem? hsorted hk hget hp) hale
    · have hi : i = left := by
        simp only [binarySearchGo, if_neg hlt] at hrun
        exact (Sum.inr.injEq _ _).mp hrun.symm |>.symm ▸ rfl
      subst hi
      refine ⟨hpre, fun k p hk hp => ?_⟩
      exact hpost k p (by omega) hp

/-- Freshness of the inserted channel index rules out the `Ok` branch of
the search: the comparator answers `eq` only on a pair equal to `item`,
and no buffered pair carries `item`'s channel index. -/
theorem binarySearchBy_inr {T : Type} [LinearOrder T] {l : List (T × Nat)}
    {item : T × Nat} (hne : ∀ p ∈ l, p.2 ≠ item.2) :
    ∃ i, binarySearchBy l (fun probe => (cmpPair probe item).swap) = Sum.inr i ∧
      i ≤ l.length := by
  have hnee : ∀ a ∈ l, (fun probe => (cmpPair probe item).swap) a ≠ Ordering.eq := by
    intro a ha h
    exact hne a ha (congrArg Prod.snd (swap_cmpPair_eq_eq h))
  rcases binarySearchGo_inr _ l hnee (l.length + 1) 0 l.length (Nat.zero_le _) with
    ⟨i, hrun, _, h2⟩
  exact ⟨i, hrun, h2⟩

/-- Whatever the comparator does, an `Err` answer lies inside the
searched window. -/
theorem binarySearchGo_inr_bounds {α : Type} {f : α → Ordering} {l : List α} :
    ∀ fuel left right i, left ≤ right →
      binarySearchGo f l fuel left right = Sum.inr i → left ≤ i ∧ i ≤ right := by
  intro fuel
  induction fuel with
  | zero =>
    intro left right i hlr hrun
    simp only [binarySearchGo] at hrun
    cases hrun
    exact ⟨le_refl _, hlr⟩
  | succ fuel ih =>
    intro left right i hlr hrun
    by_cases hlt : left < right
    · have hmid_lt : left + (right - left) / 2 < right := by omega
      have hmid_ge : left ≤ left + (right - left) / 2 := by omega
      rcases hget : l[left + (right - left) / 2]? with _ | a
      · simp only [binarySearchGo, if_pos hlt, hget] at hrun
        cases hrun
        exact ⟨le_refl _, hlr⟩
      · rcases hf : f a with _ | _ | _ <;>
          simp only [binarySearchGo, if_pos hlt, hget, hf] at hrun
        · rcases ih _ _ _ (by omega) hrun with ⟨h1, h2⟩
          exact ⟨by omega, h2⟩
        · exact absurd hrun (by simp)
        · rcases ih _ _ _ (by omega) hrun with ⟨h1, h2⟩
          exact ⟨h1, by omega⟩
    · simp only [binarySearchGo, if_neg hlt] at hrun
      cases hrun
      exact ⟨le_refl _, hlr⟩

theorem insertIdx_eq_take_append {α : Type} :
    ∀ (n : Nat) (a : α) (l : List α), n ≤ l.length →
      l.insertIdx n a = l.take n ++ a :: l.drop n := by
  intro n
  induction n with
  | zero => intro a l _; simp
  | succ n ih =>
    intro a l hl
    cases l with
    | nil => simp at hl
    | cons x xs =>
      simp only [List.insertIdx_succ_cons, List.take_succ_cons, List.drop_succ_cons,
        List.cons_append, List.cons.injEq, true_and]
      exact ih a xs (Nat.le_of_succ_le_succ hl)

/-- Inserting at a position whose prefix is value-≥ and whose suffix is
value-≤ keeps the buffer weakly descending by value. -/
theorem pairwise_insertIdx {T : Type} [LinearOrder T] {l : List (T × Nat)}
    {item : T × Nat} {i : Nat} (hi : i ≤ l.length) (hs : l.Pairwise valdesc)
    (hbefore : ∀ k p, k < i → l[k]? = some p → item.1 ≤ p.1)
    (hafter : ∀ k p, i ≤ k → l[k]? = some p → p.1 ≤ item.1) :
    (l.insertIdx i item).Pairwise valdesc := by
  rw [insertIdx_eq_take_append i item l hi]
  have htake : ∀ x ∈ l.take i, item.1 ≤ x.1 := by
    intro x hx
    rcases List.mem_iff_getElem?.mp hx with ⟨k, hk⟩
    have hklt : k < i := by
      rcases List.getElem?_eq_some_iff.mp hk with ⟨hk1, _⟩
      have := l.length_take i
      omega
    rw [List.getElem?_take_of_lt hklt] at hk
    exact hbefore k x hklt hk
  have hdrop : ∀ y ∈ l.drop i, y.1 ≤ item.1 := by
    intro y hy
    rcases List.mem_iff_getElem.mp hy with ⟨k, hk1, hk2⟩
    have hlen : i + k < l.length := by
      have := l.length_drop i
      omega
    have : l[i + k]? = some y := by
      rw [List.getElem?_eq_getElem hlen]
      rw [← List.getElem_drop l]
      exact congrArg some hk2
    exact hafter (i + k) y (Nat.le_add_right _ _) this
  apply List.pairwise_append.mpr
  refine ⟨List.Pairwise.sublist (List.take_sublist i l) hs, ?_, ?_⟩
  · apply List.pairwise_cons.mpr
    exact ⟨fun y hy => hdrop y hy, List.Pairwise.sublist (List.drop_sublist i l) hs⟩
  · intro x hx y hy
    rcases List.mem_cons.mp hy with rfl | hy'
    · exact htake x hx
    · exact le_trans (hdrop y hy') (htake x hx)

/-! ### Re-tagging lemmas -/

theorem retagFirst_map_fst {T : Type} :
    ∀ (l : List (T × Nat)) (o n : Nat),
      (retagFirst l o n).map Prod.fst = l.map Prod.fst := by
  intro l o n
  induction l with
  | nil => rfl
  | cons p rest ih =>
    by_cases h : p.2 = o <;> simp [retagFirst, h, ih]

theorem retagFirst_eq_of_not_mem {T : Type} :
    ∀ (l : List (T × Nat)) (o n : Nat), (∀ p ∈ l, p.2 ≠ o) →
      retagFirst l o n = l := by
  intro l o n h
  induction l with
  | nil => rfl
  | cons p rest ih =>
    have hp : p.2 ≠ o := h p (List.mem_cons_self p rest)
    simp only [retagFirst, if_neg hp, List.cons.injEq, true_and]
    exact ih (fun q hq => h q (List.mem_cons_of_mem p hq))

theorem mem_retagFirst_of_ne {T : Type} {l : List (T × Nat)} {q : T × Nat}
    {o n : Nat} (hq : q ∈ l) (hqo : q.2 ≠ o) : q ∈ retagFirst l o n := by
  induction l with
  | nil => cases hq
  | cons p rest ih =>
    by_cases h : p.2 = o
    · simp only [retagFirst, if_pos h]
      rcases List.mem_cons.mp hq with rfl | hq'
      · exact absurd h hqo
      · exact List.mem_cons_of_mem _ hq'
    · simp only [retagFirst, if_neg h]
      rcases List.mem_cons.mp hq with rfl | hq'
      · exact List.mem_cons_self _ _
      · exact List.mem_cons_of_mem _ (ih hq')

theorem retagFirst_retags {T : Type} {l : List (T × Nat)} {o n : Nat}
    (h : ∃ p ∈ l, p.2 = o) : ∃ v, (v, o) ∈ l ∧ (v, n) ∈ retagFirst l o n := by
  induction l with
  | nil => rcases h with ⟨p, hp, _⟩; cases hp
  | cons p rest ih =>
    by_cases hp : p.2 = o
    · refine ⟨p.1, ?_, ?_⟩
      · rw [← hp]; exact List.mem_cons_self p rest
      · simp only [retagFirst, if_pos hp]
        exact List.mem_cons_self _ _
    · rcases h with ⟨q, hq, hqo⟩
      rcases List.mem_cons.mp hq with rfl | hq'
      · exact absurd hqo hp
      · rcases ih ⟨q, hq', hqo⟩ with ⟨v, hv1, hv2⟩
        refine ⟨v, List.mem_cons_of_mem p hv1, ?_⟩
        simp only [retagFirst, if_neg hp]
        exact List.mem_cons_of_mem _ hv2

theorem mem_retagFirst_nodup {T : Type} {l : List (T × Nat)} {q : T × Nat}
    {o n : Nat} (hnd : (l.map Prod.snd).Nodup) (hq : q ∈ retagFirst l o n) :
    (q ∈ l ∧ q.2 ≠ o) ∨ (∃ v, (v, o) ∈ l ∧ q = (v, n)) := by
  induction l with
  | nil => cases hq
  | cons p rest ih =>
    rw [List.map_cons] at hnd
    rcases List.nodup_cons.mp hnd with ⟨hp_not, hnd'⟩
    by_cases hp : p.2 = o
    · simp only [retagFirst, if_pos hp] at hq
      rcases List.mem_cons.mp hq with rfl | hq'
      · exact Or.inr ⟨p.1, by rw [← hp]; exact List.mem_cons_self p rest, rfl⟩
      · left
        refine ⟨List.mem_cons_of_mem p hq', fun hqo => ?_⟩
        have : q.2 ∈ rest.map Prod.snd := List.mem_map_of_mem Prod.snd hq'
        rw [hqo, ← hp] at this
        exact hp_not this
    · simp only [retagFirst, if_neg hp] at hq
      rcases List.mem_cons.mp hq with rfl | hq'
      · exact Or.inl ⟨List.mem_cons_self _ _, hp⟩
      · rcases ih hnd' hq' with ⟨h1, h2⟩ | ⟨v, hv1, hv2⟩
        · exact Or.inl ⟨List.mem_cons_of_mem p h1, h2⟩
        · exact Or.inr ⟨v, List.mem_cons_of_mem p hv1, hv2⟩

theorem tag_mem_retagFirst {T : Type} {l : List (T × Nat)} {t o n : Nat}
    (h : t ∈ (retagFirst l o n).map Prod.snd) :
    t ∈ l.map Prod.snd ∨ t = n := by
  induction l with
  | nil => cases h
  | cons p rest ih =>
    by_cases hp : p.2 = o
    · simp only [retagFirst, if_pos hp, List.map_cons] at h
      rcases List.mem_cons.mp h with rfl | h'
      · exact Or.inr rfl
      · exact Or.inl (by rw [List.map_cons]; exact List.mem_cons_of_mem _ h')
    · simp only [retagFirst, if_neg hp, List.map_cons] at h
      rcases List.mem_cons.mp h with rfl | h'
      · exact Or.inl (by rw [List.map_cons]; exact List.mem_cons_self _ _)
      · rcases ih h' with h2 | h2
        · exact Or.inl (by rw [List.map_cons]; exact List.mem_cons_of_mem _ h2)
        · exact Or.inr h2

theorem nodup_retagFirst {T : Type} {l : List (T × Nat)} {o n : Nat}
    (hnd : (l.map Prod.snd).Nodup) (hn : ∀ p ∈ l, p.2 ≠ n) :
    ((retagFirst l o n).map Prod.snd).Nodup := by
  induction l with
  | nil => exact List.nodup_nil
  | cons p rest ih =>
    rw [List.map_cons] at hnd
    rcases List.nodup_cons.mp hnd with ⟨hp_not, hnd'⟩
    by_cases hp : p.2 = o
    · simp only [retagFirst, if_pos hp, List.map_cons]
      apply List.nodup_cons.mpr
      refine ⟨fun hmem => ?_, hnd'⟩
      rcases List.mem_map.mp hmem with ⟨q, hq1, hq2⟩
      exact hn q (List.mem_cons_of_mem p hq1) hq2
    · simp only [retagFirst, if_neg hp, List.map_cons]
      apply List.nodup_cons.mpr
      refine ⟨fun hmem => ?_, ih hnd' (fun q hq => hn q (List.mem_cons_of_mem p hq))⟩
      rcases tag_mem_retagFirst hmem with h2 | h2
      · exact hp_not h2
      · exact hn p (List.mem_cons_self p rest) h2

theorem pairwise_valdesc_of_map_fst_eq {T : Type} [LinearOrder T]
    {l l' : List (T × Nat)} (h : l'.map Prod.fst = l.map Prod.fst)
    (hs : l.Pairwise valdesc) : l'.Pairwise valdesc := by
  have h1 : List.Pairwise (fun a b : T => b ≤ a) (l'.map Prod.fst) := by
    rw [h]
    exact List.pairwise_map.mpr hs
  exact List.Pairwise.of_map Prod.fst (fun a b hab => hab) h1

namespace MergedChannels

variable {T : Type} [LinearOrder T]

/-- `sorted_insert` with a fresh channel index never hits the
`unreachable!()` branch; it returns a state with the same channels and
marker whose buffer is `item` merged in (a permutation of consing it). -/
theorem sorted_insert_spec {s : MergedChannels T} {item : T × Nat}
    (hne : ∀ p ∈ s.head_items, p.2 ≠ item.2) :
    ∃ s', sorted_insert s item = Except.ok s' ∧
      s'.chans = s.chans ∧ s'.last_picked = s.last_picked ∧
      s'.head_items.Perm (item :: s.head_items) := by
  rcases binarySearchBy_inr hne with ⟨i, hrun, hlen⟩
  refine ⟨{ s with head_items := s.head_items.insertIdx i item }, ?_, rfl, rfl, ?_⟩
  · unfold sorted_insert
    rw [hrun]
  · exact List.perm_insertIdx item s.head_items hlen

/-- When the buffer is weakly descending by value, `sorted_insert`
keeps it so. -/
theorem sorted_insert_sorted {s : MergedChannels T} {item : T × Nat}
    {s' : MergedChannels T} (hs : s.head_items.Pairwise valdesc)
    (h : sorted_insert s item = Except.ok s') :
    s'.head_items.Pairwise valdesc := by
  unfold sorted_insert at h
  rcases hrun : binarySearchBy s.head_items (fun probe => (cmpPair probe item).swap) with i | i <;>
    rw [hrun] at h
  · exact absurd h (by simp)
  · have hok : s' = { s with head_items := s.head_items.insertIdx i item } := by
      cases h; rfl
    subst hok
    rcases binarySearchGo_bounds hs (s.head_items.length + 1) 0 s.head_items.length i
      (le_refl _) (by omega) hrun
      (fun k p hk _ => absurd hk (Nat.not_lt_zero k))
      (fun k p hk hp => absurd (List.getElem?_eq_some_iff.mp hp).1 (by omega)) with
      ⟨hb, ha⟩
    have hilen : i ≤ s.head_items.length :=
      (binarySearchGo_inr_bounds _ _ _ _ (Nat.zero_le _) hrun).2
    exact pairwise_insertIdx hilen hs hb ha

/-- Whatever else happens, a successful `sorted_insert` never touches
`chans` or `last_picked`. -/
theorem sorted_insert_frame {s s' : MergedChannels T} {item : T × Nat}
    (h : sorted_insert s item = Except.ok s') :
    s'.chans = s.chans ∧ s'.last_picked = s.last_picked := by
  unfold sorted_insert at h
  rcases hrun : binarySearchBy s.head_items (fun probe => (cmpPair probe item).swap) with i | i <;>
    rw [hrun] at h
  · exact absurd h (by simp)
  · cases h; exact ⟨rfl, rfl⟩

/-! ### The merger invariant -/

/-- The unconditional part of the merger invariant: the buffer is weakly
descending by value, every buffered channel index is in range, no two
buffered items share a channel index, every channel's remaining stream
is sorted, and a buffered head is a lower bound for the rest of its
channel's stream. -/
structure Core (s : MergedChannels T) : Prop where
  buf : s.head_items.Pairwise valdesc
  tags : ∀ p ∈ s.head_items, p.2 < s.chans.length
  nodup : (s.head_items.map Prod.snd).Nodup
  chs : ∀ c ∈ s.chans, c.Pairwise (· ≤ ·)
  hle : ∀ p ∈ s.head_items, ∀ c, s.chans[p.2]? = some c → ∀ v ∈ c, p.1 ≤ v

/-- The phase part of the invariant: before the first call the buffer is
empty and no marker is set; afterwards the marker names a channel index
that has no buffered head while every other live channel has exactly
one — unless the merger has reached its terminal empty state. -/
def Phase (s : MergedChannels T) : Prop :=
  (s.last_picked = none ∧ s.head_items = []) ∨
  (∃ id, s.last_picked = some id ∧
    ((s.chans = [] ∧ s.head_items = []) ∨
     (id < s.chans.length ∧ (∀ p ∈ s.head_items, p.2 ≠ id) ∧
      ∀ j, j < s.chans.length → j ≠ id → ∃ p ∈ s.head_items, p.2 = j)))

/-- States reachable through completed `next` calls satisfy `Inv`. -/
def Inv (s : MergedChannels T) : Prop := Core s ∧ Phase s

/-- `m` is a lower bound for everything still inside the merger: all
buffered values and all values still queued in any channel. -/
def AllGE (m : T) (s : MergedChannels T) : Prop :=
  (∀ p ∈ s.head_items, m ≤ p.1) ∧ (∀ c ∈ s.chans, ∀ v ∈ c, m ≤ v)

/-! ### `remove_channel` lemmas -/

theorem remove_channel_eq (s : MergedChannels T) (id : Nat) :
    remove_channel s id =
      { chans := (s.chans.set id (s.chans.getLastD [])).dropLast,
        head_items := retagFirst s.head_items (s.chans.length - 1) id,
        last_picked := s.last_picked } := by
  unfold remove_channel
  simp [List.length_dropLast, List.length_set]

theorem remove_channel_chans_length (s : MergedChannels T) (id : Nat) :
    (remove_channel s id).chans.length = s.chans.length - 1 := by
  rw [remove_channel_eq]
  simp

/-- Channels other than the freed slot and the moved last slot keep
their position and contents. -/
theorem remove_channel_getElem_ne (s : MergedChannels T) {id j : Nat}
    (hj : j < s.chans.length - 1) (hne : j ≠ id) :
    (remove_channel s id).chans[j]? = s.chans[j]? := by
  rw [remove_channel_eq]
  simp only
  rw [List.getElem?_dropLast, List.length_set, if_pos hj]
  exact List.getElem?_set_ne (fun h => hne h.symm)

/-- The last channel moves into the freed slot. -/
theorem remove_channel_getElem_id (s : MergedChannels T) {id : Nat}
    (hid : id < s.chans.length - 1) :
    (remove_channel s id).chans[id]? = s.chans[s.chans.length - 1]? := by
  rw [remove_channel_eq]
  simp only
  rw [List.getElem?_dropLast, List.length_set, if_pos hid]
  have hidlen : id < s.chans.length := by omega
  rw [List.getElem?_set_eq_of_lt _ hidlen]
  rw [List.getLastD_eq_getLast?, List.getLast?_eq_getElem?]
  rcases hx : s.chans[s.chans.length - 1]? with _ | c
  · have := List.getElem?_eq_none_iff.mp hx
    omega
  · simp

/-- A channel of the shrunk vector was already a channel before. -/
theorem remove_channel_chans_subset (s : MergedChannels T) (id : Nat)
    (hlen : s.chans ≠ []) :
    ∀ c ∈ (remove_channel s id).chans, c ∈ s.chans := by
  intro c hc
  rw [remove_channel_eq] at hc
  simp only at hc
  have hc2 : c ∈ s.chans.set id (s.chans.getLastD []) :=
    (List.dropLast_sublist _).subset hc
  rcases List.mem_or_eq_of_mem_set hc2 with h | rfl
  · exact h
  · rw [List.getLastD_eq_getLast?, List.getLast?_eq_getElem?]
    rcases hx : s.chans[s.chans.length - 1]? with _ | c
    · have h1 := List.getElem?_eq_none_iff.mp hx
      have h2 : s.chans.length ≠ 0 := fun h => hlen (List.length_eq_zero.mp h)
      omega
    · simpa using List.getElem?_mem hx

/-- `remove_channel` keeps `Core` provided the retired channel has no
buffered head (true at every call site). -/
theorem remove_channel_core {s : MergedChannels T} {id : Nat} (hc : Core s)
    (hid : id < s.chans.length) (hno : ∀ p ∈ s.head_items, p.2 ≠ id) :
    Core (remove_channel s id) := by
  have hmem : ∀ q ∈ (remove_channel s id).head_items,
      (q ∈ s.head_items ∧ q.2 ≠ s.chans.length - 1) ∨
      (∃ v, (v, s.chans.length - 1) ∈ s.head_items ∧ q = (v, id)) := by
    intro q hq
    rw [remove_channel_eq] at hq
    exact mem_retagFirst_nodup hc.nodup hq
  constructor
  · rw [remove_channel_eq]
    exact pairwise_valdesc_of_map_fst_eq (retagFirst_map_fst _ _ _) hc.buf
  · intro q hq
    rw [remove_channel_chans_length]
    rcases hmem q hq with ⟨hq1, hq2⟩ | ⟨v, hv, rfl⟩
    · have := hc.tags q hq1
      omega
    · have : s.chans.length - 1 ≠ id := hno (v, s.chans.length - 1) hv
      omega
  · rw [remove_channel_eq]
    exact nodup_retagFirst hc.nodup hno
  · intro c hc2
    have hlen : s.chans ≠ [] := by
      intro h
      rw [h] at hid
      exact absurd hid (by simp)
    exact hc.chs c (remove_channel_chans_subset s id hlen c hc2)
  · intro q hq c hcq
    rcases hmem q hq with ⟨hq1, hq2⟩ | ⟨v, hv, rfl⟩
    · have hqlt : q.2 < s.chans.length - 1 := by
        have := hc.tags q hq1
        omega
      have hqid : q.2 ≠ id := hno q hq1
      rw [remove_channel_getElem_ne s hqlt hqid] at hcq
      exact hc.hle q hq1 c hcq
    · have hidne : s.chans.length - 1 ≠ id := hno (v, s.chans.length - 1) hv
      have hidlt : id < s.chans.length - 1 := by omega
      rw [remove_channel_getElem_id s hidlt] at hcq
      exact hc.hle (v, s.chans.length - 1) hv c hcq

/-- Coverage of an untouched slot survives retirement. -/
theorem remove_channel_cover_ne {s : MergedChannels T} {id j : Nat}
    (hj : j < s.chans.length - 1) (hjid : j ≠ id)
    (hcov : ∃ p ∈ s.head_items, p.2 = j) :
    ∃ q ∈ (remove_channel s id).head_items, q.2 = j := by
  rcases hcov with ⟨p, hp, hpj⟩
  refine ⟨p, ?_, hpj⟩
  rw [remove_channel_eq]
  exact mem_retagFirst_of_ne hp (by omega)

/-- The moved channel's head is re-tagged with the freed slot. -/
theorem remove_channel_cover_id {s : MergedChannels T} {id : Nat}
    (hcov : ∃ p ∈ s.head_items, p.2 = s.chans.length - 1) :
    ∃ q ∈ (remove_channel s id).head_items, q.2 = id := by
  have h : ∃ p ∈ s.head_items, p.2 = s.chans.length - 1 := hcov
  rcases retagFirst_retags h with ⟨v, _, hv2⟩
  refine ⟨(v, id), ?_, rfl⟩
  rw [remove_channel_eq]
  exact hv2

/-- Retirement does not change the multiset of buffered values. -/
theorem remove_channel_fst {s : MergedChannels T} (id : Nat) :
    (remove_channel s id).head_items.map Prod.fst = s.head_items.map Prod.fst := by
  rw [remove_channel_eq]
  exact retagFirst_map_fst _ _ _

/-- A lower bound for the whole merger survives retirement. -/
theorem remove_channel_allGE {s : MergedChannels T} {id : Nat} {m : T}
    (hlen : s.chans ≠ []) (h : AllGE m s) : AllGE m (remove_channel s id) := by
  constructor
  · intro q hq
    have : q.1 ∈ (remove_channel s id).head_items.map Prod.fst :=
      List.mem_map_of_mem Prod.fst hq
    rw [remove_channel_fst] at this
    rcases List.mem_map.mp this with ⟨p, hp, hpe⟩
    rw [← hpe]
    exact h.1 p hp
  · intro c hc2 v hv
    exact h.2 c (remove_channel_chans_subset s id hlen c hc2) v hv

/-! ### `receive_from` lemmas -/

theorem receive_from_ok_lt {s s' : MergedChannels T} {id : Nat}
    (h : receive_from s id = Except.ok s') : id < s.chans.length := by
  unfold receive_from at h
  rcases hch : s.chans[id]? with _ | c
  · rw [hch] at h
    exact absurd h (by simp)
  · exact List.getElem?_eq_some_iff.mp hch |>.1

theorem receive_from_len_le {s s' : MergedChannels T} {id : Nat}
    (h : receive_from s id = Except.ok s') :
    s'.chans.length ≤ s.chans.length := by
  unfold receive_from at h
  rcases hch : s.chans[id]? with _ | c <;> rw [hch] at h
  · exact absurd h (by simp)
  · rcases c with _ | ⟨v, rest⟩
    · cases h
      rw [remove_channel_chans_length]
      omega
    · have := (sorted_insert_frame h).1
      rw [this]
      simp

/-- Every index the fill loop consumes while succeeding was in range at
its own iteration, hence in range at the start (lengths never grow). -/
theorem receive_from_list_ok_lt :
    ∀ (ids : List Nat) (s s' : MergedChannels T),
      receive_from_list s ids = Except.ok s' →
      ∀ id ∈ ids, id < s.chans.length := by
  intro ids
  induction ids with
  | nil => intro s s' _ id hid; cases hid
  | cons i ids ih =>
    intro s s' h id hid
    unfold receive_from_list at h
    rcases hrec : receive_from s i with e | s1 <;> rw [hrec] at h
    · exact absurd h (by simp)
    · rcases List.mem_cons.mp hid with rfl | hid'
      · exact receive_from_ok_lt hrec
      · have h1 := ih s1 s' h id hid'
        have h2 := receive_from_len_le hrec
        omega

/-- Main specification of a single successful pull: the state stays
`Core`, the marker is untouched, lower bounds survive, and the result
either inserted the channel's head value (tagged with the channel,
buffer permuted accordingly, channel index advanced) or retired the
exhausted channel. -/
theorem receive_from_spec {s : MergedChannels T} {id : Nat} (hc : Core s)
    (hid : id < s.chans.length) (hno : ∀ p ∈ s.head_items, p.2 ≠ id) :
    ∃ s', receive_from s id = Except.ok s' ∧ Core s' ∧
      s'.last_picked = s.last_picked ∧
      (∀ m, AllGE m s → AllGE m s') ∧
      ((∃ v rest, s.chans[id]? = some (v :: rest) ∧
          s'.chans = s.chans.set id rest ∧
          s'.head_items.Perm ((v, id) :: s.head_items)) ∨
       (s.chans[id]? = some [] ∧ s' = remove_channel s id)) := by
  rcases hch : s.chans[id]? with _ | c
  · exact absurd (List.getElem?_eq_none_iff.mp hch) (by omega)
  · have hchans_ne : s.chans ≠ [] := by
      intro h
      rw [h] at hid
      exact absurd hid (by simp)
    rcases c with _ | ⟨v, rest⟩
    · refine ⟨remove_channel s id, ?_, remove_channel_core hc hid hno, ?_, ?_, Or.inr ⟨rfl, rfl⟩⟩
      · unfold receive_from
        rw [hch]
      · rw [remove_channel_eq]
      · intro m hm
        exact remove_channel_allGE hchans_ne hm
    · have hchan_mem : (v :: rest) ∈ s.chans := List.getElem?_mem hch
      have hchan_sorted : (v :: rest).Pairwise (· ≤ ·) := hc.chs _ hchan_mem
      have hv_rest : ∀ w ∈ rest, v ≤ w := (List.pairwise_cons.mp hchan_sorted).1
      have hrest_sorted : rest.Pairwise (· ≤ ·) := (List.pairwise_cons.mp hchan_sorted).2
      have hne : ∀ p ∈ ({ s with chans := s.chans.set id rest } :
          MergedChannels T).head_items, p.2 ≠ (v, id).2 := hno
      rcases sorted_insert_spec hne with ⟨s', hok, hchans, hlp, hperm⟩
      have hchans' : s'.chans = s.chans.set id rest := hchans
      have hmem : ∀ q ∈ s'.head_items, q = (v, id) ∨ q ∈ s.head_items := by
        intro q hq
        exact List.mem_cons.mp (hperm.subset hq)
      refine ⟨s', ?_, ?_, hlp, ?_, Or.inl ⟨v, rest, rfl, hchans', hperm⟩⟩
      · unfold receive_from
        rw [hch]
        exact hok
      · constructor
        · exact sorted_insert_sorted
            (show ({ s with chans := s.chans.set id rest} :
              MergedChannels T).head_items.Pairwise valdesc from hc.buf) hok
        · intro q hq
          rw [hchans', List.length_set]
          rcases hmem q hq with rfl | hq'
          · exact hid
          · exact hc.tags q hq'
        · have h1 : s'.head_items.map Prod.snd |>.Perm
              (((v, id) :: s.head_items).map Prod.snd) := hperm.map Prod.snd
          apply h1.nodup_iff.mpr
          rw [List.map_cons]
          apply List.nodup_cons.mpr
          refine ⟨fun hmm => ?_, hc.nodup⟩
          rcases List.mem_map.mp hmm with ⟨p, hp1, hp2⟩
          exact hno p hp1 hp2
        · intro c' hc'
          rw [hchans'] at hc'
          rcases List.mem_or_eq_of_mem_set hc' with h | rfl
          · exact hc.chs c' h
          · exact hrest_sorted
        · intro q hq c' hcq
          rcases hmem q hq with rfl | hq'
          · rw [hchans'] at hcq
            rw [List.getElem?_set_eq_of_lt _ hid] at hcq
            cases hcq
            exact hv_rest
          · have hqid : q.2 ≠ id := hno q hq'
            rw [hchans', List.getElem?_set_ne (fun h => hqid h.symm)] at hcq
            exact hc.hle q hq' c' hcq
      · intro m hm
        constructor
        · intro q hq
          rcases hmem q hq with rfl | hq'
          · exact hm.2 _ hchan_mem v (List.mem_cons_self v rest)
          · exact hm.1 q hq'
        · intro c' hc' w hw
          rw [hchans'] at hc'
          rcases List.mem_or_eq_of_mem_set hc' with h | rfl
          · exact hm.2 c' h w hw
          · exact hm.2 _ hchan_mem w (List.mem_cons_of_mem v hw)

/-! ### The initial fill -/

/-- Invariant of `receive_from_all`'s loop, processing indices
`k, k+1, …, N-1` of a vector that started with length `N`: if the loop
completes without panicking, the resulting buffer covers every live
channel exactly once and `Core` is maintained.  A retirement at any
index other than `N - 1` forces the loop to index out of bounds later
(the iteration range is fixed up front but the vector shrank), so a
successful run admits at most a retirement at the final index. -/
theorem fill_go (N : Nat) :
    ∀ (m k : Nat) (s : MergedChannels T), m = N - k → k ≤ N →
      s.chans.length = N → Core s →
      (∀ p ∈ s.head_items, p.2 < k) →
      (∀ j, j < k → ∃ p ∈ s.head_items, p.2 = j) →
      ∀ s', receive_from_list s (List.range' k m) = Except.ok s' →
        Core s' ∧ s'.last_picked = s.last_picked ∧
        (∀ j, j < s'.chans.length → ∃ p ∈ s'.head_items, p.2 = j) ∧
        (s'.chans.length = N ∨ s'.chans.length + 1 = N) ∧
        (∀ m₀, AllGE m₀ s → AllGE m₀ s') := by
  intro m
  induction m with
  | zero =>
    intro k s hm hk hlen hc htags hcov s' hrun
    have hkN : k = N := by omega
    have hs' : s' = s := by
      unfold receive_from_list at hrun
      cases hrun
      rfl
    subst hs'
    exact ⟨hc, rfl, fun j hj => hcov j (by omega), Or.inl hlen, fun _ h => h⟩
  | succ m ih =>
    intro k s hm hk hlen hc htags hcov s' hrun
    have hkN : k < N := by omega
    rw [List.range'_succ] at hrun
    unfold receive_from_list at hrun
    rcases hrec : receive_from s k with e | s1 <;> rw [hrec] at hrun
    · exact absurd hrun (by simp)
    · have hno : ∀ p ∈ s.head_items, p.2 ≠ k := by
        intro p hp
        have := htags p hp
        omega
      rcases receive_from_spec hc (by omega) hno with ⟨s1', hok, hc1, hlp1, hge1, hbr⟩
      rw [hrec] at hok
      have hs1 : s1' = s1 := by
        injection hok with h
        exact h.symm
      rw [hs1] at hc1 hlp1 hge1 hbr
      rcases hbr with ⟨v, rest, hch, hchans1, hperm⟩ | ⟨hch, hrm⟩
      · have hlen1 : s1.chans.length = N := by
          rw [hchans1, List.length_set]
          exact hlen
        have htags1 : ∀ p ∈ s1.head_items, p.2 < k + 1 := by
          intro p hp
          rcases List.mem_cons.mp (hperm.subset hp) with rfl | hp'
          · omega
          · have := htags p hp'
            omega
        have hcov1 : ∀ j, j < k + 1 → ∃ p ∈ s1.head_items, p.2 = j := by
          intro j hj
          by_cases hjk : j = k
          · exact ⟨(v, k), hperm.mem_iff.mpr (List.mem_cons_self _ _), hjk ▸ rfl⟩
          · rcases hcov j (by omega) with ⟨p, hp, hpj⟩
            exact ⟨p, hperm.mem_iff.mpr (List.mem_cons_of_mem _ hp), hpj⟩
        rcases ih (k + 1) s1 (by omega) (by omega) hlen1 hc1 htags1 hcov1 s' hrun with
          ⟨hcf, hlpf, hcovf, hlenf, hgef⟩
        exact ⟨hcf, by rw [hlpf, hlp1], hcovf, hlenf,
          fun m₀ h => hgef m₀ (hge1 m₀ h)⟩
      · by_cases hkN1 : k = N - 1
        · have hm0 : m = 0 := by omega
          subst hm0
          have hs' : s' = s1 := by
            unfold receive_from_list at hrun
            cases hrun
            rfl
          subst hs'
          have hlen1 : s'.chans.length + 1 = N := by
            rw [hrm, remove_channel_chans_length, hlen]
            omega
          refine ⟨hc1, hlp1, ?_, Or.inr hlen1, hge1⟩
          intro j hj
          have hjk : j < k := by omega
          rcases hcov j hjk with ⟨p, hp, hpj⟩
          rw [hrm]
          exact remove_channel_cover_ne (by omega) (by omega) ⟨p, hp, hpj⟩
        · have hmem : N - 1 ∈ List.range' (k + 1) m := by
            rw [List.mem_range']
            exact ⟨N - 1 - (k + 1), by omega, by omega⟩
          have hlt := receive_from_list_ok_lt _ _ _ hrun (N - 1) hmem
          rw [hrm, remove_channel_chans_length, hlen] at hlt
          omega

/-- The first `next` call's fill: starting from an empty buffer, a
successful `receive_from_all` yields a `Core` state whose buffer covers
every remaining channel. -/
theorem receive_from_all_spec {s : MergedChannels T} (hc : Core s)
    (hempty : s.head_items = []) {s' : MergedChannels T}
    (hrun : receive_from_all s = Except.ok s') :
    Core s' ∧ s'.last_picked = s.last_picked ∧
    (∀ j, j < s'.chans.length → ∃ p ∈ s'.head_items, p.2 = j) ∧
    (∀ m₀, AllGE m₀ s → AllGE m₀ s') := by
  unfold receive_from_all at hrun
  rw [List.range_eq_range'] at hrun
  rcases fill_go s.chans.length s.chans.length 0 s rfl (Nat.zero_le _) rfl hc
    (by rw [hempty]; intro p hp; cases hp)
    (by intro j hj; omega) s' hrun with ⟨h1, h2, h3, _, h5⟩
  exact ⟨h1, h2, h3, h5⟩

/-! ### Popping the minimal head item -/

/-- Specification of `get_next_head_item` on a `Core` state whose
buffer covers every channel: either the buffer (and then the channel
vector) is empty and nothing changes, or the last (minimal) slot is
removed and yielded, its channel index becomes the marker, and the
yielded value bounds everything that remains. -/
theorem pop_spec {s : MergedChannels T} (hc : Core s)
    (hcov : ∀ j, j < s.chans.length → ∃ p ∈ s.head_items, p.2 = j) :
    (s.head_items = [] ∧ get_next_head_item s = (s, none) ∧ s.chans = []) ∨
    (∃ v i₀ s', get_next_head_item s = (s', some v) ∧
      (v, i₀) ∈ s.head_items ∧
      s.head_items = s'.head_items ++ [(v, i₀)] ∧
      s'.chans = s.chans ∧
      s'.head_items = s.head_items.dropLast ∧
      s'.last_picked = some i₀ ∧
      Core s' ∧ i₀ < s'.chans.length ∧
      (∀ p ∈ s'.head_items, p.2 ≠ i₀) ∧
      (∀ j, j < s'.chans.length → j ≠ i₀ → ∃ p ∈ s'.head_items, p.2 = j) ∧
      (∀ p ∈ s'.head_items, v ≤ p.1) ∧
      (∀ c ∈ s'.chans, ∀ w ∈ c, v ≤ w)) := by
  by_cases hne : s.head_items = []
  · left
    refine ⟨hne, ?_, ?_⟩
    · unfold get_next_head_item
      rw [hne]
      rfl
    · have hlz : s.chans.length = 0 := by
        by_contra h
        rcases hcov 0 (by omega) with ⟨p, hp, _⟩
        rw [hne] at hp
        cases hp
      exact List.length_eq_zero.mp hlz
  · right
    obtain ⟨v, i₀, hvi⟩ : ∃ v i₀, s.head_items.getLast hne = (v, i₀) :=
      ⟨(s.head_items.getLast hne).1, (s.head_items.getLast hne).2, rfl⟩
    have hlast : s.head_items.getLast? = some (v, i₀) := by
      rw [List.getLast?_eq_getLast s.head_items hne, hvi]
    have hsplit : s.head_items.dropLast ++ [(v, i₀)] = s.head_items := by
      rw [← hvi]
      exact List.dropLast_concat_getLast hne
    have hmem_last : (v, i₀) ∈ s.head_items := by
      rw [← hvi]
      exact List.getLast_mem hne
    have hdl_sub : List.Sublist s.head_items.dropLast s.head_items :=
      List.dropLast_sublist _
    have hmin : ∀ p ∈ s.head_items.dropLast, v ≤ p.1 := by
      have hbuf := hc.buf
      rw [← hsplit] at hbuf
      rcases List.pairwise_append.mp hbuf with ⟨_, _, hcross⟩
      intro p hp
      exact hcross p hp (v, i₀) (List.mem_singleton_self _)
    have hno' : ∀ p ∈ s.head_items.dropLast, p.2 ≠ i₀ := by
      intro p hp hpe
      have h1 : p.2 ∈ s.head_items.dropLast.map Prod.snd :=
        List.mem_map_of_mem Prod.snd hp
      have hnd := hc.nodup
      rw [← hsplit, List.map_append] at hnd
      rcases List.nodup_append.mp hnd with ⟨_, _, hdisj⟩
      exact hdisj h1 (by rw [hpe]; simp)
    refine ⟨v, i₀,
      { s with head_items := s.head_items.dropLast, last_picked := some i₀ },
      ?_, hmem_last, hsplit.symm, rfl, rfl, rfl, ?_, hc.tags _ hmem_last, hno', ?_,
      hmin, ?_⟩
    · unfold get_next_head_item
      rw [hlast]
    · constructor
      · exact List.Pairwise.sublist hdl_sub hc.buf
      · intro p hp
        exact hc.tags p (hdl_sub.subset hp)
      · exact (hdl_sub.map Prod.snd).nodup hc.nodup
      · exact hc.chs
      · intro p hp c hcq
        exact hc.hle p (hdl_sub.subset hp) c hcq
    · intro j hj hji
      rcases hcov j hj with ⟨p, hp, hpj⟩
      rw [← hsplit] at hp
      rcases List.mem_append.mp hp with hp' | hp'
      · exact ⟨p, hp', hpj⟩
      · rcases List.mem_singleton.mp hp' with rfl
        exact absurd hpj.symm hji
    · intro c hcm w hw
      rcases List.mem_iff_getElem?.mp hcm with ⟨j, hj⟩
      have hjlt : j < s.chans.length := (List.getElem?_eq_some_iff.mp hj).1
      rcases hcov j hjlt with ⟨p, hp, hpj⟩
      have hple : p.1 ≤ w := by
        apply hc.hle p hp c _ w hw
        rw [hpj]
        exact hj
      have hvp : v ≤ p.1 := by
        rw [← hsplit] at hp
        rcases List.mem_append.mp hp with hp' | hp'
        · exact hmin p hp'
        · rcases List.mem_singleton.mp hp' with rfl
          exact le_refl v
      exact le_trans hvp hple

/-! ### Equations for `next` -/

theorem next_empty {s : MergedChannels T} (h : s.chans = []) :
    next s = Except.ok (s, none) := by
  unfold next
  rw [if_pos (List.isEmpty_iff.mpr h)]

theorem next_eq_of_lp_ok {s s1 : MergedChannels T} {id : Nat}
    (hemp : s.chans ≠ []) (hlp : s.last_picked = some id)
    (hrec : receive_from s id = Except.ok s1) :
    next s = Except.ok (get_next_head_item s1) := by
  unfold next
  rw [if_neg (fun hh => hemp (List.isEmpty_iff.mp hh)), hlp]
  rw [show (match some id with
      | some i => receive_from s i
      | none => receive_from_all s) = receive_from s id from rfl, hrec]

theorem next_eq_of_lp_err {s : MergedChannels T} {id : Nat} {e : Panic}
    (hemp : s.chans ≠ []) (hlp : s.last_picked = some id)
    (hrec : receive_from s id = Except.error e) :
    next s = Except.error e := by
  unfold next
  rw [if_neg (fun hh => hemp (List.isEmpty_iff.mp hh)), hlp]
  rw [show (match some id with
      | some i => receive_from s i
      | none => receive_from_all s) = receive_from s id from rfl, hrec]

theorem next_eq_of_fill_ok {s s1 : MergedChannels T}
    (hemp : s.chans ≠ []) (hlp : s.last_picked = none)
    (hrec : receive_from_all s = Except.ok s1) :
    next s = Except.ok (get_next_head_item s1) := by
  unfold next
  rw [if_neg (fun hh => hemp (List.isEmpty_iff.mp hh)), hlp, hrec]

theorem next_eq_of_fill_err {s : MergedChannels T} {e : Panic}
    (hemp : s.chans ≠ []) (hlp : s.last_picked = none)
    (hrec : receive_from_all s = Except.error e) :
    next s = Except.error e := by
  unfold next
  rw [if_neg (fun hh => hemp (List.isEmpty_iff.mp hh)), hlp, hrec]

/-- After a steady-state refill of the marked channel — whether it
inserted a fresh head or retired the channel — every remaining channel
has a buffered head. -/
theorem steady_cover {s smid : MergedChannels T} {id : Nat}
    (hidlt : id < s.chans.length)
    (hcovid : ∀ j, j < s.chans.length → j ≠ id → ∃ p ∈ s.head_items, p.2 = j)
    (hbr : (∃ v rest, s.chans[id]? = some (v :: rest) ∧
             smid.chans = s.chans.set id rest ∧
             smid.head_items.Perm ((v, id) :: s.head_items)) ∨
           (s.chans[id]? = some [] ∧ smid = remove_channel s id)) :
    ∀ j, j < smid.chans.length → ∃ p ∈ smid.head_items, p.2 = j := by
  rcases hbr with ⟨v0, rest, hch0, hchans0, hperm0⟩ | ⟨hch0, hrm0⟩
  · intro j hj
    have hlenm : smid.chans.length = s.chans.length := by
      rw [hchans0, List.length_set]
    by_cases hjid : j = id
    · subst hjid
      exact ⟨(v0, j), hperm0.mem_iff.mpr (List.mem_cons_self _ _), rfl⟩
    · rcases hcovid j (by omega) hjid with ⟨p, hp, hpj⟩
      exact ⟨p, hperm0.mem_iff.mpr (List.mem_cons_of_mem _ hp), hpj⟩
  · intro j hj
    have hlenm : smid.chans.length = s.chans.length - 1 := by
      rw [hrm0, remove_channel_chans_length]
    by_cases hjid : j = id
    · subst hjid
      have hne2 : s.chans.length - 1 ≠ j := by omega
      rcases hcovid (s.chans.length - 1) (by omega) hne2 with hcov2
      rw [hrm0]
      exact remove_channel_cover_id ⟨hcov2.choose, hcov2.choose_spec⟩
    · rcases hcovid j (by omega) hjid with ⟨p, hp, hpj⟩
      rw [hrm0]
      exact remove_channel_cover_ne (by omega) hjid ⟨p, hp, hpj⟩

/-! ### The master step theorem -/

/-- A completed `next` call preserves the invariant; a yielded value is
a lower bound for everything that remains and is itself above any lower
bound of the starting state; a `none` answer means the merger has
reached its terminal empty state. -/
theorem next_ok_spec {s s' : MergedChannels T} {out : Option T}
    (hinv : Inv s) (h : next s = Except.ok (s', out)) :
    Inv s' ∧
    (∀ v, out = some v → AllGE v s' ∧ (∀ m, AllGE m s → m ≤ v)) ∧
    (out = none → s'.chans = [] ∧ s'.head_items = []) := by
  rcases hinv with ⟨hc, hphase⟩
  by_cases hemp : s.chans = []
  · rw [next_empty hemp] at h
    injection h with h1
    have hhe : s.head_items = [] := by
      apply List.eq_nil_iff_forall_not_mem.mpr
      intro p hp
      have := hc.tags p hp
      rw [hemp] at this
      simp at this
    injection h1 with ha hb
    subst ha
    refine ⟨⟨hc, hphase⟩, ?_, ?_⟩
    · intro v hv
      rw [← hb] at hv
      cases hv
    · intro _
      exact ⟨hemp, hhe⟩
  · rcases hlp : s.last_picked with _ | id
    · -- first call: fill
      have hhe : s.head_items = [] := by
        rcases hphase with ⟨_, h2⟩ | ⟨id, h1, _⟩
        · exact h2
        · rw [hlp] at h1
          cases h1
      rcases hmid : receive_from_all s with e | smid
      · rw [next_eq_of_fill_err hemp hlp hmid] at h
        exact absurd h (by simp)
      · rw [next_eq_of_fill_ok hemp hlp hmid] at h
        injection h with h1
        rcases receive_from_all_spec hc hhe hmid with ⟨hcm, hlpm, hcovm, hgem⟩
        rcases pop_spec hcm hcovm with
          ⟨hhem, hpop, hchm⟩ |
          ⟨v, i₀, s'', hpop, hmemlast, hsplit, hchans, hheads', hlp', hcore', hi₀,
            hno', hcov', hminp, hminc⟩
        · rw [hpop] at h1
          injection h1 with ha hb
          subst ha
          refine ⟨⟨hcm, Or.inl ⟨by rw [hlpm, hlp], hhem⟩⟩, ?_, fun _ => ⟨hchm, hhem⟩⟩
          intro v hv
          rw [← hb] at hv
          cases hv
        · rw [hpop] at h1
          injection h1 with ha hb
          subst ha
          refine ⟨⟨hcore', Or.inr ⟨i₀, hlp', Or.inr ⟨hi₀, hno', hcov'⟩⟩⟩, ?_, ?_⟩
          · intro v' hv'
            rw [← hb] at hv'
            injection hv' with hv2
            subst hv2
            refine ⟨⟨hminp, hminc⟩, ?_⟩
            intro m hm
            exact (hgem m hm).1 _ hmemlast
          · intro hn
            rw [← hb] at hn
            cases hn
    · -- steady state: refill only the marked channel
      rcases hphase with ⟨h1, _⟩ | ⟨id', heq, harm⟩
      · rw [hlp] at h1
        cases h1
      · rw [hlp] at heq
        injection heq with heq2
        subst heq2
        rcases harm with ⟨hch0, _⟩ | ⟨hidlt, hnoid, hcovid⟩
        · exact absurd hch0 hemp
        · rcases hmid : receive_from s id with e | smid
          · rw [next_eq_of_lp_err hemp hlp hmid] at h
            exact absurd h (by simp)
          · rw [next_eq_of_lp_ok hemp hlp hmid] at h
            injection h with h1
            rcases receive_from_spec hc hidlt hnoid with ⟨smid', hok, hcm, hlpm, hgem, hbr⟩
            rw [hmid] at hok
            have hsm : smid' = smid := by
              injection hok with h2
              exact h2.symm
            rw [hsm] at hcm hlpm hgem hbr
            have hcov_full : ∀ j, j < smid.chans.length → ∃ p ∈ smid.head_items, p.2 = j :=
              steady_cover hidlt hcovid hbr
            rcases pop_spec hcm hcov_full with
              ⟨hhem, hpop, hchm⟩ |
              ⟨v, i₀, s'', hpop, hmemlast, hsplit, hchans, hheads', hlp', hcore',
                hi₀, hno', hcov', hminp, hminc⟩
            · rw [hpop] at h1
              injection h1 with ha hb
              subst ha
              refine ⟨⟨hcm, Or.inr ⟨id, by rw [hlpm, hlp], Or.inl ⟨hchm, hhem⟩⟩⟩, ?_,
                fun _ => ⟨hchm, hhem⟩⟩
              intro v hv
              rw [← hb] at hv
              cases hv
            · rw [hpop] at h1
              injection h1 with ha hb
              subst ha
              refine ⟨⟨hcore', Or.inr ⟨i₀, hlp', Or.inr ⟨hi₀, hno', hcov'⟩⟩⟩, ?_, ?_⟩
              · intro v' hv'
                rw [← hb] at hv'
                injection hv' with hv2
                subst hv2
                refine ⟨⟨hminp, hminc⟩, ?_⟩
                intro m hm
                exact (hgem m hm).1 _ hmemlast
              · intro hn
                rw [← hb] at hn
                cases hn

/-! ### Run-level lemmas -/

theorem steps_succ {s s1 : MergedChannels T} {out : Option T} {n : Nat}
    (h : next s = Except.ok (s1, out)) :
    steps s (n + 1) = match steps s1 n with
      | Except.error e => Except.error e
      | Except.ok (s'', outs) => Except.ok (s'', out.toList ++ outs) := by
  show (match next s with
    | Except.error e => Except.error e
    | Except.ok (s2, out2) =>
      match steps s2 n with
      | Except.error e => Except.error e
      | Except.ok (s'', outs) => Except.ok (s'', out2.toList ++ outs)) = _
  rw [h]

theorem steps_succ_err {s : MergedChannels T} {e : Panic} {n : Nat}
    (h : next s = Except.error e) :
    steps s (n + 1) = Except.error e := by
  show (match next s with
    | Except.error e => Except.error e
    | Except.ok (s2, out2) =>
      match steps s2 n with
      | Except.error e => Except.error e
      | Except.ok (s'', outs) => Except.ok (s'', out2.toList ++ outs)) = _
  rw [h]

/-- Once the channel vector is empty the merger is frozen: any number of
further calls yields nothing and leaves the state untouched. -/
theorem steps_terminal {s : MergedChannels T} (h : s.chans = []) :
    ∀ n, steps s n = Except.ok (s, []) := by
  intro n
  induction n with
  | zero => rfl
  | succ n ih =>
    rw [steps_succ (next_empty h), ih]
    rfl

/-- The invariant holds in every state reached by completed calls. -/
theorem steps_inv : ∀ (n : Nat) (s s' : MergedChannels T) (vs : List T),
    Inv s → steps s n = Except.ok (s', vs) → Inv s' := by
  intro n
  induction n with
  | zero =>
    intro s s' vs hinv h
    unfold steps at h
    injection h with h1
    injection h1 with ha hb
    rw [← ha]
    exact hinv
  | succ n ih =>
    intro s s' vs hinv h
    rcases hnx : next s with e | ⟨s1, out⟩
    · rw [steps_succ_err hnx] at h
      exact absurd h (by simp)
    · rw [steps_succ hnx] at h
      rcases hst : steps s1 n with e | ⟨s'', outs⟩ <;> rw [hst] at h
      · exact absurd h (by simp)
      · injection h with h1
        injection h1 with ha hb
        rw [← ha]
        exact ih s1 s'' outs (next_ok_spec hinv hnx).1 hst

/-- Any lower bound of the state starts a chain through the outputs of
any number of completed calls. -/
theorem steps_chain : ∀ (n : Nat) (m : T) (s s' : MergedChannels T) (vs : List T),
    Inv s → AllGE m s → steps s n = Except.ok (s', vs) →
    List.Chain (· ≤ ·) m vs := by
  intro n
  induction n with
  | zero =>
    intro m s s' vs hinv hm h
    unfold steps at h
    injection h with h1
    injection h1 with ha hb
    rw [← hb]
    exact List.Chain.nil
  | succ n ih =>
    intro m s s' vs hinv hm h
    rcases hnx : next s with e | ⟨s1, out⟩
    · rw [steps_succ_err hnx] at h
      exact absurd h (by simp)
    · rw [steps_succ hnx] at h
      rcases hst : steps s1 n with e | ⟨s'', outs⟩ <;> rw [hst] at h
      · exact absurd h (by simp)
      · injection h with h1
        injection h1 with ha hb
        rcases next_ok_spec hinv hnx with ⟨hinv1, hsome, hnone⟩
        rcases out with _ | v
        · rw [← hb]
          rcases hnone rfl with ⟨hch1, hhe1⟩
          have hge1 : AllGE m s1 := by
            constructor
            · intro p hp
              rw [hhe1] at hp
              cases hp
            · intro c hc2
              rw [hch1] at hc2
              cases hc2
          exact ih m s1 s'' outs hinv1 hge1 hst
        · rw [← hb]
          rcases hsome v rfl with ⟨hge1, hmv⟩
          exact List.Chain.cons (hmv m hm) (ih v s1 s'' outs hinv1 hge1 hst)

/-- The output across any number of completed calls is sorted, from any
invariant state. -/
theorem steps_sorted {n : Nat} {s s' : MergedChannels T} {vs : List T}
    (hinv : Inv s) (h : steps s n = Except.ok (s', vs)) :
    vs.Chain' (· ≤ ·) := by
  cases n with
  | zero =>
    unfold steps at h
    injection h with h1
    injection h1 with ha hb
    rw [← hb]
    trivial
  | succ n =>
    rcases hnx : next s with e | ⟨s1, out⟩
    · rw [steps_succ_err hnx] at h
      exact absurd h (by simp)
    · rw [steps_succ hnx] at h
      rcases hst : steps s1 n with e | ⟨s'', outs⟩ <;> rw [hst] at h
      · exact absurd h (by simp)
      · injection h with h1
        injection h1 with ha hb
        rcases next_ok_spec hinv hnx with ⟨hinv1, hsome, hnone⟩
        rcases out with _ | v
        · rw [← hb]
          rcases hnone rfl with ⟨hch1, _⟩
          have := steps_terminal hch1 n
          rw [hst] at this
          injection this with h2
          injection h2 with h2a h2b
          rw [h2b]
          trivial
        · rw [← hb]
          exact steps_chain n v s1 s'' outs hinv1 (hsome v rfl).1 hst

/-- A freshly constructed merger over individually sorted channels
satisfies the invariant. -/
theorem inv_new {cs : List (List T)} (h : ∀ c ∈ cs, c.Pairwise (· ≤ ·)) :
    Inv (new cs) := by
  refine ⟨⟨?_, ?_, ?_, ?_, ?_⟩, Or.inl ⟨rfl, rfl⟩⟩
  · exact List.Pairwise.nil
  · intro p hp
    cases hp
  · exact List.nodup_nil
  · exact h
  · intro p hp
    cases hp

/-! ### The duplicate-key branch is unreachable -/

/-- Every channel index buffered after a successful pull from channel
`id` was buffered before or equals `id` (in the retirement case the
only re-tag writes `id`). -/
theorem receive_from_tags {s s1 : MergedChannels T} {id : Nat}
    (h : receive_from s id = Except.ok s1) :
    ∀ q ∈ s1.head_items, q.2 ∈ s.head_items.map Prod.snd ∨ q.2 = id := by
  unfold receive_from at h
  rcases hch : s.chans[id]? with _ | c <;> rw [hch] at h
  · exact absurd h (by simp)
  · rcases c with _ | ⟨v, rest⟩
    · injection h with h1
      rw [← h1, remove_channel_eq]
      intro q hq
      exact tag_mem_retagFirst (List.mem_map_of_mem Prod.snd hq)
    · unfold sorted_insert at h
      dsimp only at h
      rcases hbs : binarySearchBy s.head_items
          (fun probe => (cmpPair probe (v, id)).swap) with i | i <;> rw [hbs] at h
      · exact absurd h (by simp)
      · injection h with h1
        have hib : i ≤ s.head_items.length :=
          (binarySearchGo_inr_bounds _ _ _ _ (Nat.zero_le _) hbs).2
        rw [← h1]
        intro q hq
        rcases (List.mem_insertIdx hib).mp hq with rfl | hq'
        · exact Or.inr rfl
        · exact Or.inl (List.mem_map_of_mem Prod.snd hq')

/-- A pull from a channel with no buffered head can never hit the
`unreachable!()` duplicate-key branch. -/
theorem receive_from_no_dup {s : MergedChannels T} {id : Nat}
    (hno : ∀ p ∈ s.head_items, p.2 ≠ id) :
    receive_from s id ≠ Except.error Panic.duplicateKey := by
  unfold receive_from
  rcases hch : s.chans[id]? with _ | c
  · intro h
    injection h with h1
    cases h1
  · rcases c with _ | ⟨v, rest⟩
    · intro h
      cases h
    · dsimp only
      rcases sorted_insert_spec (show ∀ p ∈ ({ s with chans := s.chans.set id rest } :
          MergedChannels T).head_items, p.2 ≠ (v, id).2 from hno) with ⟨s', hok, _⟩
      rw [hok]
      intro h
      cases h

/-- The fill loop visits strictly increasing indices, each above every
buffered channel index, so none of its insertions can collide: the fill
may panic on the out-of-bounds read, but never on the duplicate key. -/
theorem fill_no_dup :
    ∀ (ids : List Nat) (s : MergedChannels T),
      ids.Pairwise (· < ·) → (∀ p ∈ s.head_items, ∀ i ∈ ids, p.2 < i) →
      receive_from_list s ids ≠ Except.error Panic.duplicateKey := by
  intro ids
  induction ids with
  | nil =>
    intro s _ _ h
    cases h
  | cons i ids ih =>
    intro s hasc htags h
    unfold receive_from_list at h
    rcases hrec : receive_from s i with e | s1 <;> rw [hrec] at h
    · have hno : ∀ p ∈ s.head_items, p.2 ≠ i := by
        intro p hp
        have := htags p hp i (List.mem_cons_self i ids)
        omega
      injection h with h1
      rw [h1] at hrec
      exact receive_from_no_dup hno hrec
    · have hasc' : ids.Pairwise (· < ·) := (List.pairwise_cons.mp hasc).2
      have hlt_all : ∀ i' ∈ ids, i < i' := (List.pairwise_cons.mp hasc).1
      have htags1 : ∀ p ∈ s1.head_items, ∀ i' ∈ ids, p.2 < i' := by
        intro p hp i' hi'
        rcases receive_from_tags hrec p hp with hmem | hid
        · rcases List.mem_map.mp hmem with ⟨q, hq1, hq2⟩
          have := htags q hq1 i' (List.mem_cons_of_mem i hi')
          omega
        · have := hlt_all i' hi'
          omega
      exact ih s1 hasc' htags1 h

/-- From any invariant state, `next` never executes the duplicate-key
`unreachable!()`.  (It can still fail with the out-of-bounds read during
the initial fill.) -/
theorem next_no_dup {s : MergedChannels T} (hinv : Inv s) :
    next s ≠ Except.error Panic.duplicateKey := by
  rcases hinv with ⟨hc, hphase⟩
  by_cases hemp : s.chans = []
  · rw [next_empty hemp]
    intro h
    cases h
  · rcases hlp : s.last_picked with _ | id
    · have hhe : s.head_items = [] := by
        rcases hphase with ⟨_, h2⟩ | ⟨id, h1, _⟩
        · exact h2
        · rw [hlp] at h1
          cases h1
      rcases hmid : receive_from_all s with e | smid
      · rw [next_eq_of_fill_err hemp hlp hmid]
        have hnd := fill_no_dup (List.range s.chans.length) s
          (List.pairwise_lt_range _)
          (by rw [hhe]; intro p hp; cases hp)
        unfold receive_from_all at hmid
        rw [hmid] at hnd
        intro h
        injection h with h1
        rw [h1] at hnd
        exact hnd rfl
      · rw [next_eq_of_fill_ok hemp hlp hmid]
        intro h
        cases h
    · rcases hphase with ⟨h1, _⟩ | ⟨id', heq, harm⟩
      · rw [hlp] at h1
        cases h1
      · rw [hlp] at heq
        injection heq with heq2
        subst heq2
        rcases harm with ⟨hch0, _⟩ | ⟨hidlt, hnoid, hcovid⟩
        · exact absurd hch0 hemp
        · rcases hmid : receive_from s id with e | smid
          · rw [next_eq_of_lp_err hemp hlp hmid]
            have := receive_from_no_dup hnoid
            rw [hmid] at this
            intro h
            injection h with h1
            rw [h1] at this
            exact this rfl
          · rw [next_eq_of_lp_ok hemp hlp hmid]
            intro h
            cases h

/-! ### Auxiliary counting lemmas -/

theorem snd_inj_of_nodup {l : List (T × Nat)}
    (hnd : (l.map Prod.snd).Nodup) {v v' : T} {o : Nat}
    (h1 : (v, o) ∈ l) (h2 : (v', o) ∈ l) : v = v' := by
  induction l with
  | nil => cases h1
  | cons p rest ih =>
    rw [List.map_cons] at hnd
    rcases List.nodup_cons.mp hnd with ⟨hp_not, hnd'⟩
    rcases List.mem_cons.mp h1 with he1 | h1'
    · rcases List.mem_cons.mp h2 with he2 | h2'
      · rw [← he2] at he1
        exact congrArg Prod.fst he1
      · exfalso
        apply hp_not
        rw [show p.2 = o from by rw [← he1]]
        exact List.mem_map_of_mem Prod.snd h2'
    · rcases List.mem_cons.mp h2 with he2 | h2'
      · exfalso
        apply hp_not
        rw [show p.2 = o from by rw [← he2]]
        exact List.mem_map_of_mem Prod.snd h1'
      · exact ih hnd' h1' h2'

theorem filter_snd_le_one {l : List (T × Nat)}
    (hnd : (l.map Prod.snd).Nodup) (i : Nat) :
    (l.filter (fun p => p.2 == i)).length ≤ 1 := by
  induction l with
  | nil => simp
  | cons p rest ih =>
    rw [List.map_cons] at hnd
    rcases List.nodup_cons.mp hnd with ⟨hp_not, hnd'⟩
    by_cases hp : p.2 = i
    · rw [List.filter_cons_of_pos (by simpa using hp)]
      have hrest : rest.filter (fun p => p.2 == i) = [] := by
        apply List.filter_eq_nil.mpr
        intro q hq hqi
        apply hp_not
        have : q.2 = i := by simpa using hqi
        rw [← hp] at this
        rw [← this]
        exact List.mem_map_of_mem Prod.snd hq
      rw [hrest]
      simp
    · rw [List.filter_cons_of_neg (by simpa using hp)]
      exact ih hnd'

/-! ### The single-producer run -/

/-- With a single channel the merger simply echoes it: from the steady
state the remaining stream is yielded element by element, in order. -/
theorem single_go (c : List T) :
    ∀ n, c.length < n →
      steps (⟨[c], [], some 0⟩ : MergedChannels T) n =
        Except.ok (⟨[], [], some 0⟩, c) := by
  induction c with
  | nil =>
    intro n hn
    cases n with
    | zero => omega
    | succ n =>
      have h1 : next (⟨[[]], [], some 0⟩ : MergedChannels T) =
          Except.ok (⟨[], [], some 0⟩, none) := rfl
      rw [steps_succ h1, steps_terminal rfl n]
      rfl
  | cons v rest ih =>
    intro n hn
    cases n with
    | zero => simp at hn
    | succ n =>
      have h1 : next (⟨[v :: rest], [], some 0⟩ : MergedChannels T) =
          Except.ok (⟨[rest], [], some 0⟩, some v) := rfl
      rw [steps_succ h1, ih n (by simp at hn; omega)]
      rfl

/-! ### Claim theorems -/

/-- C1: for every merger built from producers whose individual streams
are each non-decreasing, the sequence of values yielded by repeated
`next()` calls is globally non-decreasing (over any number of completed
calls). -/
theorem merged_output_globally_sorted (cs : List (List T))
    (hs : ∀ c ∈ cs, c.Pairwise (· ≤ ·)) (n : Nat) (s' : MergedChannels T)
    (vs : List T) (hrun : steps (new cs) n = Except.ok (s', vs)) :
    vs.Chain' (· ≤ ·) :=
  steps_sorted (inv_new hs) hrun

theorem merged_output_globally_sorted_witness :
    (∀ c ∈ ([[10, 30, 50], [20, 40]] : List (List Nat)), c.Pairwise (· ≤ ·)) ∧
    List.Chain' (· ≤ ·) [10, 20, 30, 40, 50] :=
  ⟨by decide,
   merged_output_globally_sorted [[10, 30, 50], [20, 40]] (by decide) 7
     ⟨[], [], some 0⟩ [10, 20, 30, 40, 50] (by rfl)⟩

/-- C2 (the claim fails on the code): with producer 0 already exhausted
and producer 1 holding `[7, 9]`, the very first `next()` indexes
`chans[1]` after the vector has shrunk to length 1 and panics, so no
call ever yields anything: the multiset `{7, 9}` delivered by the
producers is lost rather than reproduced. -/
theorem completeness_lost_on_initial_panic :
    steps (new ([[], [7, 9]] : List (List Nat))) 1 =
      Except.error Panic.indexOutOfBounds ∧
    steps (new ([[], [7, 9]] : List (List Nat))) 5 =
      Except.error Panic.indexOutOfBounds :=
  ⟨rfl, rfl⟩

/-- C3 (the claim fails on the code): the initial fill iterates over
`0..chans.len()` with the bound captured before the loop, so retiring an
already-exhausted producer 0 mid-fill shrinks `chans` and the final
iteration's `self.chans[1]` indexes out of bounds instead of completing
the fill. -/
theorem initial_fill_oob_panic :
    next (new ([[], [5]] : List (List Nat))) =
      Except.error Panic.indexOutOfBounds :=
  rfl

/-- C4: retirement removes the channel by swap-with-last-then-shrink and
re-tags the (unique, by distinctness of buffered indices) head slot
carrying the old trailing index with the freed index; in the spec's
3-producer example, producer 1 exhausts while producer 2's head `(40, 2)`
is buffered, after which that head is attributed to index 1 and the
remaining refills reach the correct underlying producers. -/
theorem retirement_swap_retag :
    (∀ (s : MergedChannels T) (id : Nat), id < s.chans.length →
      (s.head_items.map Prod.snd).Nodup →
      ((remove_channel s id).chans.length + 1 = s.chans.length ∧
       (∀ j, j < s.chans.length - 1 → j ≠ id →
          (remove_channel s id).chans[j]? = s.chans[j]?) ∧
       (id < s.chans.length - 1 →
          (remove_channel s id).chans[id]? = s.chans[s.chans.length - 1]?) ∧
       (∀ p ∈ s.head_items, p.2 ≠ s.chans.length - 1 →
          p ∈ (remove_channel s id).head_items) ∧
       (∀ v : T, (v, s.chans.length - 1) ∈ s.head_items →
          (v, id) ∈ (remove_channel s id).head_items))) ∧
    steps (new ([[10, 30, 50], [20], [40, 60]] : List (List Nat))) 3 =
      Except.ok (⟨[[50], [60]], [(40, 1)], some 0⟩, [10, 20, 30]) ∧
    steps (new ([[10, 30, 50], [20], [40, 60]] : List (List Nat))) 8 =
      Except.ok (⟨[], [], some 0⟩, [10, 20, 30, 40, 50, 60]) := by
  refine ⟨?_, rfl, rfl⟩
  intro s id hid hnd
  refine ⟨?_, ?_, ?_, ?_, ?_⟩
  · rw [remove_channel_chans_length]
    omega
  · intro j hj hjne
    exact remove_channel_getElem_ne s hj hjne
  · intro hlt
    exact remove_channel_getElem_id s hlt
  · intro p hp hpne
    rw [remove_channel_eq]
    exact mem_retagFirst_of_ne hp hpne
  · intro v hv
    rcases retagFirst_retags ⟨(v, s.chans.length - 1), hv, rfl⟩ with ⟨w, hw1, hw2⟩
    have hwv : w = v := snd_inj_of_nodup hnd hw1 hv
    rw [remove_channel_eq, ← hwv]
    exact hw2

theorem retirement_swap_retag_witness :
    (1 < (⟨[[1], [2], [3]], [(5, 2)], some 1⟩ : MergedChannels Nat).chans.length) ∧
    (5, 1) ∈ (remove_channel
      (⟨[[1], [2], [3]], [(5, 2)], some 1⟩ : MergedChannels Nat) 1).head_items :=
  ⟨by decide,
   (retirement_swap_retag.1 ⟨[[1], [2], [3]], [(5, 2)], some 1⟩ 1 (by decide)
     (by decide)).2.2.2.2 5 (by decide)⟩

/-- C5: whenever the channel vector is empty — in particular for a
merger constructed with zero producers, and for any state reached after
every producer has been retired and the buffer drained — `next()`
returns `DONE` without changing the state, and arbitrarily many further
calls keep doing so. -/
theorem done_terminal_idempotent (s : MergedChannels T) (h : s.chans = []) :
    next s = Except.ok (s, none) ∧ ∀ n, steps s n = Except.ok (s, []) :=
  ⟨next_empty h, steps_terminal h⟩

theorem done_terminal_idempotent_witness :
    next (new ([] : List (List Nat))) = Except.ok (new [], none) ∧
    steps (new ([] : List (List Nat))) 5 = Except.ok (new [], []) :=
  ⟨(done_terminal_idempotent (new []) rfl).1,
   (done_terminal_idempotent (new []) rfl).2 5⟩

/-- C6: in every state reachable from a merger over sorted streams by
completed `next()` calls, the next call never executes the duplicate-key
`unreachable!()` branch of `sorted_insert`: the binary search compares
the composite key `(value, index)` and every insertion uses a channel
index absent from the buffer. -/
theorem no_duplicate_key_panic (cs : List (List T)) (n : Nat)
    (s' : MergedChannels T) (vs : List T)
    (hs : ∀ c ∈ cs, c.Pairwise (· ≤ ·))
    (hrun : steps (new cs) n = Except.ok (s', vs)) :
    next s' ≠ Except.error Panic.duplicateKey :=
  next_no_dup (steps_inv n (new cs) s' vs (inv_new hs) hrun)

theorem no_duplicate_key_panic_witness :
    next (new ([[1], [2]] : List (List Nat))) ≠ Except.error Panic.duplicateKey :=
  no_duplicate_key_panic [[1], [2]] 0 (new [[1], [2]]) [] (by decide) rfl

/-- C7: in a steady state (marker set, channels remain), `next()` pulls
from exactly the marked channel — consuming its head value, or retiring
it and moving only the trailing channel (contents intact) into the freed
slot — leaving every other producer's channel untouched; the pop then
removes the trailing slot `(v, j)` of the refilled buffer `mid_items`
(a lower bound of the rest) and records exactly that slot's channel
index `j` as the new last-picked marker. -/
theorem steady_state_single_refill (s : MergedChannels T) (id : Nat)
    (hinv : Inv s) (hlp : s.last_picked = some id) (hne : s.chans ≠ []) :
    ∃ s' out mid_items, next s = Except.ok (s', out) ∧
      ((∃ v0 rest, s.chans[id]? = some (v0 :: rest) ∧
          s'.chans = s.chans.set id rest ∧
          mid_items.Perm ((v0, id) :: s.head_items)) ∨
       (s.chans[id]? = some [] ∧
          s'.chans.length + 1 = s.chans.length ∧
          (id < s.chans.length - 1 →
            s'.chans[id]? = s.chans[s.chans.length - 1]?) ∧
          mid_items = retagFirst s.head_items (s.chans.length - 1) id)) ∧
      (∀ j, j ≠ id → j < s.chans.length - 1 → s'.chans[j]? = s.chans[j]?) ∧
      (∀ v, out = some v → ∃ j, mid_items = s'.head_items ++ [(v, j)] ∧
        s'.last_picked = some j ∧ (∀ p ∈ s'.head_items, v ≤ p.1)) ∧
      (out = none → mid_items = [] ∧ s'.head_items = []) := by
  rcases hinv with ⟨hc, hphase⟩
  rcases hphase with ⟨h1, _⟩ | ⟨id', heq, harm⟩
  · rw [hlp] at h1
    cases h1
  · rw [hlp] at heq
    injection heq with heq2
    subst heq2
    rcases harm with ⟨hch0, _⟩ | ⟨hidlt, hnoid, hcovid⟩
    · exact absurd hch0 hne
    · rcases receive_from_spec hc hidlt hnoid with ⟨smid, hok, hcm, hlpm, hgem, hbr⟩
      have hnext : next s = Except.ok (get_next_head_item smid) :=
        next_eq_of_lp_ok hne hlp hok
      have hcovf := steady_cover hidlt hcovid hbr
      rcases pop_spec hcm hcovf with
        ⟨hhem, hpop, hchm⟩ |
        ⟨v, i₀, s'', hpop, hmemlast, hsplit, hchans, hheads', hlp', hcore', hi₀,
          hno', hcov', hminp, hminc⟩
      · refine ⟨smid, none, smid.head_items, by rw [hnext, hpop], ?_, ?_, ?_, ?_⟩
        · rcases hbr with ⟨v, rest, hch2, hchans2, hperm2⟩ | ⟨hch2, hrm2⟩
          · exact Or.inl ⟨v, rest, hch2, hchans2, hperm2⟩
          · refine Or.inr ⟨hch2, ?_, ?_, ?_⟩
            · rw [hrm2, remove_channel_chans_length]
              omega
            · intro hlt
              rw [hrm2]
              exact remove_channel_getElem_id s hlt
            · rw [hrm2, remove_channel_eq]
        · intro j hjid hjlt
          rcases hbr with ⟨v, rest, hch2, hchans2, _⟩ | ⟨hch2, hrm2⟩
          · rw [hchans2]
            exact List.getElem?_set_ne (fun h => hjid h.symm)
          · rw [hrm2]
            exact remove_channel_getElem_ne s hjlt hjid
        · intro v hv
          cases hv
        · intro _
          exact ⟨hhem, hhem⟩
      · refine ⟨s'', some v, smid.head_items, by rw [hnext, hpop], ?_, ?_, ?_, ?_⟩
        · rcases hbr with ⟨v2, rest, hch2, hchans2, hperm2⟩ | ⟨hch2, hrm2⟩
          · refine Or.inl ⟨v2, rest, hch2, ?_, hperm2⟩
            rw [hchans, hchans2]
          · refine Or.inr ⟨hch2, ?_, ?_, ?_⟩
            · rw [hchans, hrm2, remove_channel_chans_length]
              omega
            · intro hlt
              rw [hchans, hrm2]
              exact remove_channel_getElem_id s hlt
            · rw [hrm2, remove_channel_eq]
        · intro j hjid hjlt
          rcases hbr with ⟨v2, rest, hch2, hchans2, _⟩ | ⟨hch2, hrm2⟩
          · rw [hchans, hchans2]
            exact List.getElem?_set_ne (fun h => hjid h.symm)
          · rw [hchans, hrm2]
            exact remove_channel_getElem_ne s hjlt hjid
        · intro v' hv'
          injection hv' with hv2
          subst hv2
          exact ⟨i₀, hsplit, hlp', hminp⟩
        · intro hn
          cases hn

theorem steady_state_single_refill_witness :
    ∃ s' out mid_items,
      next (⟨[[2, 9], [4]], [(4, 1)], some 0⟩ : MergedChannels Nat) =
        Except.ok (s', out) ∧
      ((∃ v0 rest,
          (⟨[[2, 9], [4]], [(4, 1)], some 0⟩ : MergedChannels Nat).chans[0]? =
            some (v0 :: rest) ∧
          s'.chans =
            (⟨[[2, 9], [4]], [(4, 1)], some 0⟩ :
              MergedChannels Nat).chans.set 0 rest ∧
          mid_items.Perm ((v0, 0) ::
            (⟨[[2, 9], [4]], [(4, 1)], some 0⟩ :
              MergedChannels Nat).head_items)) ∨
       ((⟨[[2, 9], [4]], [(4, 1)], some 0⟩ : MergedChannels Nat).chans[0]? =
          some [] ∧
        s'.chans.length + 1 =
          (⟨[[2, 9], [4]], [(4, 1)], some 0⟩ :
            MergedChannels Nat).chans.length ∧
        (0 < (⟨[[2, 9], [4]], [(4, 1)], some 0⟩ :
            MergedChannels Nat).chans.length - 1 →
          s'.chans[0]? =
            (⟨[[2, 9], [4]], [(4, 1)], some 0⟩ : MergedChannels Nat).chans[
              (⟨[[2, 9], [4]], [(4, 1)], some 0⟩ :
                MergedChannels Nat).chans.length - 1]?) ∧
        mid_items = retagFirst
          (⟨[[2, 9], [4]], [(4, 1)], some 0⟩ : MergedChannels Nat).head_items
          ((⟨[[2, 9], [4]], [(4, 1)], some 0⟩ :
            MergedChannels Nat).chans.length - 1) 0)) ∧
      (∀ j, j ≠ 0 →
        j < (⟨[[2, 9], [4]], [(4, 1)], some 0⟩ :
          MergedChannels Nat).chans.length - 1 →
        s'.chans[j]? =
          (⟨[[2, 9], [4]], [(4, 1)], some 0⟩ : MergedChannels Nat).chans[j]?) ∧
      (∀ v, out = some v → ∃ j, mid_items = s'.head_items ++ [(v, j)] ∧
        s'.last_picked = some j ∧ (∀ p ∈ s'.head_items, v ≤ p.1)) ∧
      (out = none → mid_items = [] ∧ s'.head_items = []) :=
  steady_state_single_refill ⟨[[2, 9], [4]], [(4, 1)], some 0⟩ 0
    ⟨⟨by simp [valdesc], by decide, by decide, by decide,
      by
        intro p hp c hcq
        rcases List.mem_singleton.mp hp with rfl
        injection hcq with h2
        rw [← h2]
        decide⟩,
     Or.inr ⟨0, rfl, Or.inr ⟨by decide, by decide, by decide⟩⟩⟩
    rfl (by decide)

/-- C8: the head-slot buffer is weakly sorted by value in every
reachable state, `sorted_insert` preserves that order, and the minimal
slot sits at the popped end: the value removed by `get_next_head_item`
is a lower bound of the whole buffer. -/
theorem buffer_sorted_min_at_end :
    (∀ (s s' : MergedChannels T) (item : T × Nat),
      s.head_items.Pairwise valdesc →
      sorted_insert s item = Except.ok s' →
      s'.head_items.Pairwise valdesc) ∧
    (∀ (cs : List (List T)) (n : Nat) (s' : MergedChannels T) (vs : List T),
      (∀ c ∈ cs, c.Pairwise (· ≤ ·)) →
      steps (new cs) n = Except.ok (s', vs) →
      s'.head_items.Pairwise valdesc) ∧
    (∀ (s s' : MergedChannels T) (v : T),
      s.head_items.Pairwise valdesc →
      get_next_head_item s = (s', some v) →
      s'.head_items = s.head_items.dropLast ∧ ∀ p ∈ s.head_items, v ≤ p.1) := by
  refine ⟨fun s s' item hs h => sorted_insert_sorted hs h, ?_, ?_⟩
  · intro cs n s' vs hs hrun
    exact (steps_inv n (new cs) s' vs (inv_new hs) hrun).1.buf
  · intro s s' v hs hpop
    unfold get_next_head_item at hpop
    rcases hl : s.head_items.getLast? with _ | ⟨w, i⟩ <;> rw [hl] at hpop
    · injection hpop with h1 h2
      cases h2
    · injection hpop with h1 h2
      injection h2 with h3
      subst h3
      rw [← h1]
      have hne : s.head_items ≠ [] := by
        intro h0
        rw [h0] at hl
        cases hl
      have hgl : s.head_items.getLast hne = (w, i) := by
        have h4 := List.getLast?_eq_getLast s.head_items hne
        rw [hl] at h4
        injection h4 with h5
        exact h5.symm
      have hsplit : s.head_items.dropLast ++ [(w, i)] = s.head_items := by
        rw [← hgl]
        exact List.dropLast_concat_getLast hne
      refine ⟨rfl, ?_⟩
      intro p hp
      rw [← hsplit] at hp
      rcases List.mem_append.mp hp with hp' | hp'
      · have hbuf := hs
        rw [← hsplit] at hbuf
        rcases List.pairwise_append.mp hbuf with ⟨_, _, hcross⟩
        exact hcross p hp' (w, i) (List.mem_singleton_self _)
      · rcases List.mem_singleton.mp hp' with rfl
        exact le_refl _

theorem buffer_sorted_min_at_end_witness :
    (⟨[], [(5, 0)], some 1⟩ : MergedChannels Nat).head_items =
      ([(5, 0), (3, 1)] : List (Nat × Nat)).dropLast ∧
    ∀ p ∈ ([(5, 0), (3, 1)] : List (Nat × Nat)), 3 ≤ p.1 :=
  buffer_sorted_min_at_end.2.2 ⟨[], [(5, 0), (3, 1)], none⟩
    ⟨[], [(5, 0)], some 1⟩ 3 (by simp [valdesc]) rfl

/-- C9: a merger over exactly one producer echoes that producer's stream
exactly, element for element in order, and then reports `DONE` from the
emptied terminal state; no sortedness of the stream is needed. -/
theorem single_producer_identity (c : List T) (n : Nat) (hn : c.length < n) :
    steps (new [c]) n =
      Except.ok (⟨[], [], if c.isEmpty then none else some 0⟩, c) ∧
    next (⟨[], [], if c.isEmpty then none else some 0⟩ : MergedChannels T) =
      Except.ok
        ((⟨[], [], if c.isEmpty then none else some 0⟩ : MergedChannels T),
          none) := by
  constructor
  · cases c with
    | nil =>
      cases n with
      | zero => simp at hn
      | succ n =>
        have h1 : next (new ([[]] : List (List T))) =
            Except.ok ((⟨[], [], none⟩ : MergedChannels T), none) := rfl
        rw [steps_succ h1, steps_terminal rfl n]
        rfl
    | cons v rest =>
      cases n with
      | zero => simp at hn
      | succ n =>
        have h1 : next (new ([v :: rest] : List (List T))) =
            Except.ok ((⟨[rest], [], some 0⟩ : MergedChannels T), some v) := rfl
        rw [steps_succ h1, single_go rest n (by simp at hn; omega)]
        rfl
  · exact next_empty rfl

theorem single_producer_identity_witness :
    steps (new ([[3, 1, 2]] : List (List Nat))) 4 =
      Except.ok
        (⟨[], [], if ([3, 1, 2] : List Nat).isEmpty then none else some 0⟩,
          [3, 1, 2]) ∧
    next (⟨[], [], if ([3, 1, 2] : List Nat).isEmpty then none else some 0⟩ :
        MergedChannels Nat) =
      Except.ok
        ((⟨[], [], if ([3, 1, 2] : List Nat).isEmpty then none else some 0⟩ :
            MergedChannels Nat), none) :=
  single_producer_identity [3, 1, 2] 4 (by decide)

/-- C10: after any number of completed `next()` calls from a merger over
sorted streams, the buffered channel indices are pairwise distinct and
all in range, a set marker that is dereferenced for a refill (channels
remain) is a valid index, and consequently each still-active producer
has at most one buffered head slot. -/
theorem buffered_indices_distinct_valid (cs : List (List T)) (n : Nat)
    (s' : MergedChannels T) (vs : List T)
    (hs : ∀ c ∈ cs, c.Pairwise (· ≤ ·))
    (hrun : steps (new cs) n = Except.ok (s', vs)) :
    (s'.head_items.map Prod.snd).Nodup ∧
    (∀ p ∈ s'.head_items, p.2 < s'.chans.length) ∧
    (∀ id, s'.last_picked = some id → s'.chans ≠ [] → id < s'.chans.length) ∧
    (∀ i, (s'.head_items.filter (fun p => p.2 == i)).length ≤ 1) := by
  have hinv := steps_inv n (new cs) s' vs (inv_new hs) hrun
  rcases hinv with ⟨hcore, hphase⟩
  refine ⟨hcore.nodup, hcore.tags, ?_, fun i => filter_snd_le_one hcore.nodup i⟩
  intro id hid hne
  rcases hphase with ⟨h1, _⟩ | ⟨id2, heq, harm⟩
  · rw [hid] at h1
    cases h1
  · rw [hid] at heq
    injection heq with heq2
    subst heq2
    rcases harm with ⟨hch0, _⟩ | ⟨hidlt, _, _⟩
    · exact absurd hch0 hne
    · exact hidlt

theorem buffered_indices_distinct_valid_witness :
    ((⟨[[], []], [(3, 0)], some 1⟩ :
        MergedChannels Nat).head_items.map Prod.snd).Nodup ∧
    (∀ p ∈ (⟨[[], []], [(3, 0)], some 1⟩ : MergedChannels Nat).head_items,
      p.2 < (⟨[[], []], [(3, 0)], some 1⟩ : MergedChannels Nat).chans.length) ∧
    (∀ id, (⟨[[], []], [(3, 0)], some 1⟩ :
        MergedChannels Nat).last_picked = some id →
      (⟨[[], []], [(3, 0)], some 1⟩ : MergedChannels Nat).chans ≠ [] →
      id < (⟨[[], []], [(3, 0)], some 1⟩ : MergedChannels Nat).chans.length) ∧
    (∀ i, ((⟨[[], []], [(3, 0)], some 1⟩ :
        MergedChannels Nat).head_items.filter (fun p => p.2 == i)).length ≤ 1) :=
  buffered_indices_distinct_valid [[1, 3], [2]] 2 ⟨[[], []], [(3, 0)], some 1⟩
    [1, 2] (by decide) (by rfl)

end MergedChannels
